import Mathlib

/-!
Verification of the dbsync synchronization engine against its
specification.  The Python sources are shallowly embedded: each Lean
definition mirrors one function of the code base (the doc comment
names the file and function), and the theorems settle the spec claims.
-/

namespace DbSync

/-- The `command` column of an operation: insert, update or delete
(dbsync/models.py, `Operation.command_options`). -/
inductive Cmd where
  | i
  | u
  | d
deriving DecidableEq, Repr

/-- One row of the `operations` table (dbsync/models.py, class
`Operation`): a monotonic order (the primary key), the tracked row's
primary key, the content type, the nullable version link and the
command. -/
structure Operation where
  order : Nat
  row_id : Nat
  content_type_id : Nat
  version_id : Option Nat
  command : Cmd
deriving DecidableEq, Repr

/-- The grouping key used by both compression modes
(dbsync/client/compression.py: `lambda op: (op.row_id, op.content_type_id)`). -/
def opKey (o : Operation) : Nat × Nat := (o.row_id, o.content_type_id)

/-! ### Stable sorting by the `order` column

Python's `sorted(operations, key=attr('order'))` is a stable ascending
sort; the database's `ORDER BY order ASC/DESC` sorts by the primary
key, on which ties are impossible.  We embed the ascending sort as a
stable insertion sort and the descending one as its reverse. -/

/-- Insert `x` after every element whose `order` is `≤ x.order`
(stable insertion, as Python's `sorted`). -/
def insertByOrder (x : Operation) : List Operation → List Operation
  | [] => [x]
  | a :: as => if a.order ≤ x.order then a :: insertByOrder x as else x :: a :: as

/-- Stable ascending sort by `order`. -/
def sortByOrder (l : List Operation) : List Operation :=
  l.foldl (fun acc x => insertByOrder x acc) []

/-- Descending sort by `order` (`ORDER BY order DESC`; `order` is the
primary key, so there are no ties and this is the reverse of the
ascending sort). -/
def sortByOrderDesc (l : List Operation) : List Operation :=
  (sortByOrder l).reverse

theorem mem_insertByOrder {y x : Operation} {l : List Operation} :
    y ∈ insertByOrder x l ↔ y = x ∨ y ∈ l := by
  induction l with
  | nil => simp [insertByOrder]
  | cons a as ih =>
      by_cases h : a.order ≤ x.order
      · simp [insertByOrder, h, ih]
        tauto
      · simp [insertByOrder, h]

theorem mem_sortByOrder {y : Operation} {l : List Operation} :
    y ∈ sortByOrder l ↔ y ∈ l := by
  suffices h : ∀ acc, y ∈ l.foldl (fun acc x => insertByOrder x acc) acc ↔
      y ∈ acc ∨ y ∈ l by
    have := h []
    simpa [sortByOrder] using this
  induction l with
  | nil => intro acc; simp
  | cons a as ih =>
      intro acc
      simp only [List.foldl_cons, ih, mem_insertByOrder, List.mem_cons]
      tauto

/-- The ordering relation used throughout: comparison of `order`. -/
def leOrder (a b : Operation) : Prop := a.order ≤ b.order

theorem sorted_insertByOrder {x : Operation} {l : List Operation}
    (h : l.Sorted leOrder) : (insertByOrder x l).Sorted leOrder := by
  induction l with
  | nil => simp [insertByOrder, List.Sorted]
  | cons a as ih =>
      rw [List.sorted_cons] at h
      by_cases hc : a.order ≤ x.order
      · rw [insertByOrder, if_pos hc, List.sorted_cons]
        refine ⟨?_, ih h.2⟩
        intro b hb
        rcases mem_insertByOrder.mp hb with rfl | hb
        · exact hc
        · exact h.1 b hb
      · rw [insertByOrder, if_neg hc, List.sorted_cons]
        refine ⟨?_, by rw [List.sorted_cons]; exact h⟩
        intro b hb
        rcases List.mem_cons.mp hb with rfl | hb
        · exact Nat.le_of_not_le hc
        · exact le_trans (Nat.le_of_not_le hc) (h.1 b hb)

theorem sorted_sortByOrder (l : List Operation) :
    (sortByOrder l).Sorted leOrder := by
  suffices h : ∀ acc, acc.Sorted leOrder →
      (l.foldl (fun acc x => insertByOrder x acc) acc).Sorted leOrder by
    exact h [] (by simp)
  induction l with
  | nil => intro acc hacc; simpa using hacc
  | cons a as ih =>
      intro acc hacc
      exact ih _ (sorted_insertByOrder hacc)

theorem insertByOrder_of_ge {x : Operation} {l : List Operation}
    (h : ∀ b ∈ l, b.order ≤ x.order) : insertByOrder x l = l ++ [x] := by
  induction l with
  | nil => rfl
  | cons a as ih =>
      rw [insertByOrder, if_pos (h a (by simp))]
      simp only [List.cons_append, List.cons.injEq, true_and]
      exact ih fun b hb => h b (by simp [hb])

theorem sortByOrder_append_singleton (l : List Operation) (x : Operation) :
    sortByOrder (l ++ [x]) = insertByOrder x (sortByOrder l) := by
  simp [sortByOrder, List.foldl_append]

/-- Sorting a list already sorted by `order` leaves it unchanged. -/
theorem sortByOrder_of_sorted {l : List Operation}
    (h : l.Sorted leOrder) : sortByOrder l = l := by
  induction l using List.reverseRecOn with
  | nil => rfl
  | append_singleton init x ih =>
      have hinit : init.Sorted leOrder :=
        h.sublist (List.sublist_append_left init [x])
      have hlast : ∀ b ∈ init, b.order ≤ x.order := by
        intro b hb
        have := (List.pairwise_append.mp h).2.2 b hb x (by simp)
        exact this
      rw [sortByOrder_append_singleton, ih hinit, insertByOrder_of_ge hlast]

theorem sortByOrder_idem (l : List Operation) :
    sortByOrder (sortByOrder l) = sortByOrder l :=
  sortByOrder_of_sorted (sorted_sortByOrder l)

theorem filter_insertByOrder (p : Operation → Bool) {x : Operation}
    {l : List Operation} (h : l.Sorted leOrder) :
    (insertByOrder x l).filter p =
      if p x then insertByOrder x (l.filter p) else l.filter p := by
  induction l with
  | nil => by_cases hp : p x <;> simp [insertByOrder, hp]
  | cons a as ih =>
      rw [List.sorted_cons] at h
      by_cases hc : a.order ≤ x.order
      · rw [insertByOrder, if_pos hc]
        by_cases hp : p a
        · by_cases hx : p x <;>
            simp [List.filter_cons, hp, hx, ih h.2, insertByOrder, hc]
        · by_cases hx : p x <;> simp [List.filter_cons, hp, hx, ih h.2]
      · rw [insertByOrder, if_neg hc]
        have hpre : ∀ m : List Operation, (∀ b ∈ m, ¬ b.order ≤ x.order) →
            insertByOrder x m = x :: m := by
          intro m hm
          cases m with
          | nil => rfl
          | cons b bs => rw [insertByOrder, if_neg (hm b (by simp))]
        by_cases hx : p x
        · rw [if_pos hx]
          have : insertByOrder x ((a :: as).filter p) = x :: (a :: as).filter p := by
            refine hpre _ ?_
            intro b hb
            have hb' := List.mem_of_mem_filter hb
            rcases List.mem_cons.mp hb' with rfl | hb'
            · exact hc
            · intro hle
              exact hc (le_trans (h.1 b hb') hle)
          rw [this]
          simp [List.filter_cons, hx]
        · simp [List.filter_cons, hx]

theorem filter_sortByOrder (p : Operation → Bool) (l : List Operation) :
    (sortByOrder l).filter p = sortByOrder (l.filter p) := by
  induction l using List.reverseRecOn with
  | nil => rfl
  | append_singleton init x ih =>
      rw [sortByOrder_append_singleton,
        filter_insertByOrder p (sorted_sortByOrder init), List.filter_append]
      by_cases hx : p x
      · rw [if_pos hx, ih]
        rw [show List.filter p [x] = [x] by simp [hx], sortByOrder_append_singleton]
      · rw [if_neg hx, ih]
        rw [show List.filter p [x] = ([] : List Operation) by simp [hx],
          List.append_nil]

theorem perm_insertByOrder (x : Operation) (l : List Operation) :
    List.Perm (insertByOrder x l) (x :: l) := by
  induction l with
  | nil => exact List.Perm.refl _
  | cons a as ih =>
      by_cases hc : a.order ≤ x.order
      · rw [insertByOrder, if_pos hc]
        exact (ih.cons a).trans (List.Perm.swap x a as)
      · rw [insertByOrder, if_neg hc]

/-- Insertion sort produces a permutation of the input. -/
theorem sortByOrder_perm (l : List Operation) :
    List.Perm (sortByOrder l) l := by
  induction l using List.reverseRecOn with
  | nil => exact List.Perm.refl _
  | append_singleton init x ih =>
      rw [sortByOrder_append_singleton]
      refine (perm_insertByOrder x (sortByOrder init)).trans ?_
      refine List.Perm.trans ?_ (ih.append_right [x])
      simpa using (@List.perm_append_comm _ [x] (sortByOrder init))

/-! ### Grouping (dbsync/lang.py, `group_by`)

Python's `group_by` builds a dict mapping key to its operations in
encounter order.  We embed it as an association list keyed in first
appearance order, which records the same mapping. -/

/-- Append `o` to the group of key `k`, creating the group if new. -/
def addToGroup (k : Nat × Nat) (o : Operation) :
    List ((Nat × Nat) × List Operation) → List ((Nat × Nat) × List Operation)
  | [] => [(k, [o])]
  | g :: gs => if g.1 = k then (g.1, g.2 ++ [o]) :: gs else g :: addToGroup k o gs

/-- dbsync/lang.py `group_by`, specialized to the operation key. -/
def group_by (l : List Operation) : List ((Nat × Nat) × List Operation) :=
  l.foldl (fun gs o => addToGroup (opKey o) o gs) []

/-- The group stored for key `k` (empty when the key is absent). -/
def groupOf (k : Nat × Nat) (gs : List ((Nat × Nat) × List Operation)) :
    List Operation :=
  match gs.find? (fun g => g.1 = k) with
  | some g => g.2
  | none => []

theorem groupOf_addToGroup (k k0 : Nat × Nat) (o : Operation)
    (gs : List ((Nat × Nat) × List Operation)) :
    groupOf k (addToGroup k0 o gs) =
      if k0 = k then groupOf k gs ++ [o] else groupOf k gs := by
  induction gs with
  | nil =>
      by_cases h : k0 = k <;> simp [addToGroup, groupOf, List.find?, h]
  | cons g gs ih =>
      by_cases hg : g.1 = k0
      · rw [addToGroup, if_pos hg]
        by_cases hk : k0 = k
        · subst hk
          simp [groupOf, List.find?, hg]
        · have hgk : ¬ (g.1 = k) := by rw [hg]; exact hk
          simp [groupOf, List.find?, hgk, hk]
      · rw [addToGroup, if_neg hg]
        by_cases hgk : g.1 = k
        · have hk : ¬ (k0 = k) := by
            intro h; exact hg (by rw [hgk, h])
          simp [groupOf, List.find?, hgk, hk]
        · by_cases hk : k0 = k <;>
            simp [groupOf, List.find?, hgk, hk] <;>
            simpa [groupOf, hk] using ih

/-- The group of key `k` is exactly the sublist of operations with that
key, in list order: `group_by` is faithful to the dict it builds. -/
theorem groupOf_group_by (k : Nat × Nat) (l : List Operation) :
    groupOf k (group_by l) = l.filter (fun o => opKey o = k) := by
  suffices h : ∀ gs, groupOf k (l.foldl (fun gs o => addToGroup (opKey o) o gs) gs) =
      groupOf k gs ++ l.filter (fun o => opKey o = k) by
    simpa [group_by, groupOf] using h []
  induction l with
  | nil => intro gs; simp
  | cons a as ih =>
      intro gs
      simp only [List.foldl_cons, ih, groupOf_addToGroup, List.filter_cons]
      by_cases hk : opKey a = k
      · simp [hk]
      · simp [hk]

/-! ### In-memory compression
(dbsync/client/compression.py, `compressed_operations`) -/

/-- The per-group body of `compressed_operations` (lines 161–185): the
group `seq` is sorted by `order` ascending, `seq.head` is the oldest
operation and `seq.getLast` the newest.  The result is what the loop
appends to `compressed` for this group. -/
def reduceSeq : List Operation → List Operation
  | [] => []
  | [o] => [o]
  | o :: b :: rest =>
      match o.command with
      | Cmd.i => if ((b :: rest).getLastD o).command = Cmd.d then [] else [o]
      | Cmd.u =>
          if ((b :: rest).getLastD o).command = Cmd.d
          then [(b :: rest).getLastD o] else [o]
      | Cmd.d =>
          if ((b :: rest).getLastD o).command = Cmd.d then [o]
          else if ((b :: rest).getLastD o).command = Cmd.u
          then [(b :: rest).getLastD o]
          else [{ (b :: rest).getLastD o with command := Cmd.u }]

/-- dbsync/client/compression.py, `compressed_operations`: group the
operations (sorted by `order`) by `(row_id, content_type_id)`, reduce
each group, and sort the result by `order`. -/
def compressed_operations (operations : List Operation) : List Operation :=
  let seqs := group_by (sortByOrder operations)
  let compressed := (seqs.map (fun g => reduceSeq g.2)).flatten
  sortByOrder compressed

theorem getLastD_cons_mem (o b : Operation) (rest : List Operation) :
    (b :: rest).getLastD o ∈ b :: rest := by
  induction rest generalizing o b with
  | nil => simp [List.getLastD]
  | cons c cs ih =>
      rw [List.getLastD_cons]
      exact List.mem_cons_of_mem b (ih b c)

theorem reduceSeq_length_le (g : List Operation) : (reduceSeq g).length ≤ 1 := by
  match g with
  | [] => simp [reduceSeq]
  | [o] => simp [reduceSeq]
  | o :: b :: rest =>
      rw [reduceSeq]
      cases o.command <;> dsimp only <;> split <;> simp <;> split <;> simp

theorem reduceSeq_keys {g : List Operation} {k : Nat × Nat}
    (hk : ∀ x ∈ g, opKey x = k) : ∀ o ∈ reduceSeq g, opKey o = k := by
  match g with
  | [] => intro o ho; simp [reduceSeq] at ho
  | [o] =>
      intro x hx
      rw [reduceSeq] at hx
      simp only [List.mem_singleton] at hx
      exact hx ▸ hk o (by simp)
  | o :: b :: rest =>
      intro x hx
      have hkl : opKey ((b :: rest).getLastD o) = k :=
        hk _ (List.mem_cons_of_mem o (getLastD_cons_mem o b rest))
      have hko : opKey o = k := hk o (by simp)
      rw [reduceSeq] at hx
      cases hoc : o.command <;> simp only [hoc] at hx
      case i =>
        split at hx
        · simp at hx
        · simp only [List.mem_singleton] at hx; exact hx ▸ hko
      case u =>
        split at hx
        · simp only [List.mem_singleton] at hx; exact hx ▸ hkl
        · simp only [List.mem_singleton] at hx; exact hx ▸ hko
      case d =>
        split at hx
        · simp only [List.mem_singleton] at hx; exact hx ▸ hko
        · split at hx
          · simp only [List.mem_singleton] at hx; exact hx ▸ hkl
          · simp only [List.mem_singleton] at hx
            subst hx
            simpa [opKey] using hkl

theorem reduceSeq_singleton (o : Operation) : reduceSeq [o] = [o] := rfl

theorem sortByOrder_short {l : List Operation} (h : l.length ≤ 1) :
    sortByOrder l = l := by
  match l with
  | [] => rfl
  | [o] => rfl
  | a :: b :: r => simp at h

/-! Structural facts about `group_by`: every stored operation carries
its group's key, and keys are not repeated. -/

theorem keys_addToGroup (k : Nat × Nat) (o : Operation)
    (gs : List ((Nat × Nat) × List Operation)) :
    (addToGroup k o gs).map Prod.fst =
      if k ∈ gs.map Prod.fst then gs.map Prod.fst else gs.map Prod.fst ++ [k] := by
  induction gs with
  | nil => simp [addToGroup]
  | cons g gs ih =>
      by_cases hg : g.1 = k
      · simp [addToGroup, hg]
      · have : k ∈ g.1 :: gs.map Prod.fst ↔ k ∈ gs.map Prod.fst := by
          simp only [List.mem_cons]
          constructor
          · rintro (rfl | h)
            · exact absurd rfl hg
            · exact h
          · exact Or.inr
        by_cases hm : k ∈ gs.map Prod.fst <;>
          simp [addToGroup, hg, ih, hm, this]

/-- Invariant carried through the fold of `group_by`. -/
def GroupsWF (gs : List ((Nat × Nat) × List Operation)) : Prop :=
  ((gs.map Prod.fst).Nodup) ∧ ∀ g ∈ gs, ∀ o ∈ g.2, opKey o = g.1

theorem groupsWF_addToGroup {gs : List ((Nat × Nat) × List Operation)}
    (h : GroupsWF gs) (o : Operation) :
    GroupsWF (addToGroup (opKey o) o gs) := by
  obtain ⟨hnd, hwf⟩ := h
  constructor
  · rw [keys_addToGroup]
    split
    · exact hnd
    · rw [List.nodup_append]
      refine ⟨hnd, List.nodup_singleton _, ?_⟩
      intro a ha hb
      simp only [List.mem_singleton] at hb
      rename_i hnm
      exact hnm (hb ▸ ha)
  · intro g hg x hx
    induction gs with
    | nil =>
        simp only [addToGroup, List.mem_singleton] at hg
        subst hg
        simp only [List.mem_singleton] at hx
        subst hx
        rfl
    | cons g0 gs0 ih =>
        by_cases hk : g0.1 = opKey o
        · rw [addToGroup, if_pos hk] at hg
          rcases List.mem_cons.mp hg with rfl | hg
          · rcases List.mem_append.mp hx with hx | hx
            · exact hwf g0 (by simp) x hx
            · simp only [List.mem_singleton] at hx
              subst hx
              exact hk.symm
          · exact hwf g (List.mem_cons_of_mem _ hg) x hx
        · rw [addToGroup, if_neg hk] at hg
          rcases List.mem_cons.mp hg with rfl | hg
          · exact hwf g (by simp) x hx
          · refine ih ?_ ?_ hg
            · exact (List.nodup_cons.mp hnd).2
            · intro g1 hg1 y hy
              exact hwf g1 (List.mem_cons_of_mem _ hg1) y hy

theorem groupsWF_group_by (l : List Operation) : GroupsWF (group_by l) := by
  suffices h : ∀ gs, GroupsWF gs →
      GroupsWF (l.foldl (fun gs o => addToGroup (opKey o) o gs) gs) by
    exact h [] ⟨by simp, by simp⟩
  induction l with
  | nil => intro gs hgs; exact hgs
  | cons a as ih =>
      intro gs hgs
      exact ih _ (groupsWF_addToGroup hgs a)

theorem groupOf_of_not_mem {k : Nat × Nat}
    {gs : List ((Nat × Nat) × List Operation)}
    (h : k ∉ gs.map Prod.fst) : groupOf k gs = [] := by
  induction gs with
  | nil => rfl
  | cons g gs ih =>
      simp only [List.map_cons, List.mem_cons] at h
      push_neg at h
      have hne : ¬ (g.1 = k) := fun hh => h.1 hh.symm
      simp only [groupOf, List.find?]
      rw [show (g.1 = k : Bool) = false by simpa using hne]
      exact ih h.2

/-- Filtering the concatenated per-group outputs to one key recovers
exactly that key's reduction. -/
theorem filter_join_reduce {gs : List ((Nat × Nat) × List Operation)}
    (hwf : GroupsWF gs) (k : Nat × Nat) :
    ((gs.map (fun g => reduceSeq g.2)).flatten).filter (fun o => opKey o = k) =
      reduceSeq (groupOf k gs) := by
  obtain ⟨hnd, hwfe⟩ := hwf
  induction gs with
  | nil => simp [groupOf, reduceSeq]
  | cons g gs ih =>
      rw [List.map_cons, List.nodup_cons] at hnd
      simp only [List.map_cons, List.flatten_cons, List.filter_append]
      by_cases hk : g.1 = k
      · subst hk
        have h1 : (reduceSeq g.2).filter (fun o => opKey o = g.1) = reduceSeq g.2 := by
          apply List.filter_eq_self.mpr
          intro o ho
          exact decide_eq_true (reduceSeq_keys (hwfe g (by simp)) o ho)
        have h2 : ((gs.map (fun g => reduceSeq g.2)).flatten).filter
            (fun o => opKey o = g.1) = [] := by
          rw [ih hnd.2 (fun g1 hg1 => hwfe g1 (List.mem_cons_of_mem _ hg1)),
            groupOf_of_not_mem hnd.1]
          rfl
        rw [h1, h2, List.append_nil]
        simp [groupOf, List.find?]
      · have h1 : (reduceSeq g.2).filter (fun o => opKey o = k) = [] := by
          apply List.filter_eq_nil_iff.mpr
          intro o ho
          have := reduceSeq_keys (hwfe g (by simp)) o ho
          simpa [this] using hk
        rw [h1, List.nil_append,
          ih hnd.2 (fun g1 hg1 => hwfe g1 (List.mem_cons_of_mem _ hg1))]
        simp only [groupOf, List.find?]
        rw [show (g.1 = k : Bool) = false by simpa using hk]

/-- Projection of the in-memory compression to one group: the output,
restricted to key `k`, is the reduction of that key's sorted group. -/
theorem compressed_operations_filter (ops : List Operation) (k : Nat × Nat) :
    (compressed_operations ops).filter (fun o => opKey o = k) =
      reduceSeq ((sortByOrder ops).filter (fun o => opKey o = k)) := by
  unfold compressed_operations
  rw [filter_sortByOrder, filter_join_reduce (groupsWF_group_by _) k,
    groupOf_group_by, sortByOrder_short (reduceSeq_length_le _)]

theorem addToGroup_fresh {k : Nat × Nat} {o : Operation}
    {gs : List ((Nat × Nat) × List Operation)} (h : k ∉ gs.map Prod.fst) :
    addToGroup k o gs = gs ++ [(k, [o])] := by
  induction gs with
  | nil => rfl
  | cons g gs ih =>
      simp only [List.map_cons, List.mem_cons] at h
      push_neg at h
      rw [addToGroup, if_neg (fun hh => h.1 hh.symm), ih h.2]
      simp

theorem foldl_addToGroup_fresh :
    ∀ (l : List Operation) (gs : List ((Nat × Nat) × List Operation)),
      (l.map opKey).Nodup → (∀ o ∈ l, opKey o ∉ gs.map Prod.fst) →
      l.foldl (fun gs o => addToGroup (opKey o) o gs) gs =
        gs ++ l.map (fun o => (opKey o, [o])) := by
  intro l
  induction l with
  | nil => intro gs _ _; simp
  | cons a as ih =>
      intro gs hnd hgs
      rw [List.map_cons, List.nodup_cons] at hnd
      simp only [List.foldl_cons]
      rw [addToGroup_fresh (hgs a (by simp)), ih _ hnd.2 ?fresh]
      · simp
      case fresh =>
        intro o ho hmem
        rw [List.map_append] at hmem
        rcases List.mem_append.mp hmem with hmem | hmem
        · exact hgs o (List.mem_cons_of_mem a ho) hmem
        · simp only [List.map_cons, List.map_nil, List.mem_singleton] at hmem
          exact hnd.1 (hmem ▸ List.mem_map_of_mem opKey ho)

/-- When no key repeats, grouping yields one singleton group per
operation, in order. -/
theorem group_by_of_nodup_keys {l : List Operation}
    (h : (l.map opKey).Nodup) :
    group_by l = l.map (fun o => (opKey o, [o])) := by
  have := foldl_addToGroup_fresh l [] h (by simp)
  simpa [group_by] using this

theorem flatten_map_singleton (l : List Operation) :
    (l.map (fun o => [o])).flatten = l := by
  induction l with
  | nil => rfl
  | cons a as ih => simp [ih]

theorem nodup_of_length_le {l : List (Nat × Nat)} (h : l.length ≤ 1) :
    l.Nodup := by
  match l with
  | [] => simp
  | [a] => simp
  | a :: b :: r => simp at h

theorem mem_flatten_reduce_keys {gs : List ((Nat × Nat) × List Operation)}
    (hwf : ∀ g ∈ gs, ∀ o ∈ g.2, opKey o = g.1) {k : Nat × Nat}
    (hk : k ∈ ((gs.map (fun g => reduceSeq g.2)).flatten).map opKey) :
    k ∈ gs.map Prod.fst := by
  rcases List.mem_map.mp hk with ⟨o, ho, rfl⟩
  rcases List.mem_flatten.mp ho with ⟨m, hm, homem⟩
  rcases List.mem_map.mp hm with ⟨g, hg, rfl⟩
  have := reduceSeq_keys (hwf g hg) o homem
  exact this ▸ List.mem_map_of_mem Prod.fst hg

theorem nodup_keys_flatten_reduce {gs : List ((Nat × Nat) × List Operation)}
    (hwf : GroupsWF gs) :
    (((gs.map (fun g => reduceSeq g.2)).flatten).map opKey).Nodup := by
  obtain ⟨hnd, hwfe⟩ := hwf
  induction gs with
  | nil => simp
  | cons g gs ih =>
      rw [List.map_cons, List.nodup_cons] at hnd
      simp only [List.map_cons, List.flatten_cons, List.map_append]
      rw [List.nodup_append]
      refine ⟨?_, ih hnd.2 (fun g1 hg1 => hwfe g1 (List.mem_cons_of_mem _ hg1)), ?_⟩
      · apply nodup_of_length_le
        rw [List.length_map]
        exact reduceSeq_length_le g.2
      · intro k hk1 hk2
        rcases List.mem_map.mp hk1 with ⟨o, ho, rfl⟩
        have hko : opKey o = g.1 := reduceSeq_keys (hwfe g (by simp)) o ho
        have := mem_flatten_reduce_keys
          (fun g1 hg1 => hwfe g1 (List.mem_cons_of_mem _ hg1)) hk2
        exact hnd.1 (hko ▸ this)

theorem compressed_operations_sorted (ops : List Operation) :
    (compressed_operations ops).Sorted leOrder := by
  unfold compressed_operations
  exact sorted_sortByOrder _

theorem compressed_operations_nodup_keys (ops : List Operation) :
    ((compressed_operations ops).map opKey).Nodup := by
  unfold compressed_operations
  have hperm : List.Perm
      ((sortByOrder ((((group_by (sortByOrder ops))).map
        (fun g => reduceSeq g.2)).flatten)).map opKey)
      (((((group_by (sortByOrder ops))).map
        (fun g => reduceSeq g.2)).flatten).map opKey) :=
    (sortByOrder_perm _).map opKey
  exact hperm.nodup_iff.mpr (nodup_keys_flatten_reduce (groupsWF_group_by _))

/-- Claim C4 (1/1).  In-memory compression is idempotent and leaves at
most one operation per `(content_type_id, row_id)` group. -/
theorem C4_compressed_operations_idempotent :
    (∀ ops : List Operation,
      compressed_operations (compressed_operations ops) = compressed_operations ops) ∧
    (∀ (ops : List Operation) (k : Nat × Nat),
      ((compressed_operations ops).filter (fun o => opKey o = k)).length ≤ 1) := by
  constructor
  · intro ops
    have hsorted := compressed_operations_sorted ops
    have hnodup := compressed_operations_nodup_keys ops
    conv_lhs => rw [compressed_operations]
    rw [sortByOrder_of_sorted hsorted, group_by_of_nodup_keys hnodup]
    rw [List.map_map]
    have : ((compressed_operations ops).map
        ((fun g => reduceSeq g.2) ∘ (fun o => (opKey o, [o])))) =
        (compressed_operations ops).map (fun o => [o]) := by
      apply List.map_congr_left
      intro o _
      rfl
    rw [this, flatten_map_singleton, sortByOrder_of_sorted hsorted]
  · intro ops k
    rw [compressed_operations_filter]
    exact reduceSeq_length_le _

/-! ### In-database compression
(dbsync/client/compression.py, `compress`)

The database table is embedded as the list of its unversioned
operations.  `ORDER BY order DESC` yields the reverse of the ascending
sort (`order` is the primary key, so ties are impossible).  Deleting
rows keeps the others in place, which a `filter` models.  The repair
pass consults the live table: `tracked` tells whether a content type
is still registered (`operation.tracked_model`), `existsRow` whether
the backing object exists (`query_model(...).count() == 0`). -/

/-- Reduction step of `compress` (lines 78–92) for one group `seq`
given newest-to-oldest: the operations left undeleted, still
newest-to-oldest.  `seq[-1]` is the oldest operation and `seq[:-1]`
drops it. -/
def reduceKeepDb : List Operation → List Operation
  | [] => []
  | [o] => [o]
  | o :: b :: rest =>
      if ((b :: rest).getLastD o).command = Cmd.i then
        if (o :: (b :: rest).dropLast).all (fun x => x.command = Cmd.u) then
          [(b :: rest).getLastD o]
        else if o.command = Cmd.d then []
        else o :: b :: rest
      else if ((b :: rest).getLastD o).command = Cmd.u then
        if (o :: (b :: rest).dropLast).all (fun x => x.command = Cmd.u) then [o]
        else if o.command = Cmd.d then [o]
        else o :: b :: rest
      else o :: b :: rest

/-- The repair loop's query for operations on the same row later in
`order` than `op` (lines 115–119). -/
def subsequentOps (current : List Operation) (op : Operation) : List Operation :=
  current.filter (fun x => decide (x.content_type_id = op.content_type_id ∧
    x.row_id = op.row_id ∧ op.order < x.order))

/-- One decision of the repair loop (lines 96–139): should `op` be
deleted, given the other operations `current` still in the table? -/
def repairDelete (tracked : Nat → Bool) (existsRow : Nat × Nat → Bool)
    (current : List Operation) (op : Operation) : Bool :=
  if ¬ tracked op.content_type_id then false
  else if (op.command = Cmd.i ∨ op.command = Cmd.u) ∧
      existsRow (opKey op) = false then true
  else if op.command = Cmd.u ∧
      (subsequentOps current op).any (fun x => decide (x.command = Cmd.i)) = true ∧
      (∀ x ∈ subsequentOps current op, ¬ x.command = Cmd.d) then true
  else if ∃ x ∈ current, x.content_type_id = op.content_type_id ∧
      x.command = op.command ∧ x.row_id = op.row_id ∧ x.order ≠ op.order then true
  else false

/-- The repair loop: iterate over the remaining operations newest
first; each decision sees the table as the kept prefix plus the
unprocessed suffix (deletions are flushed at each step). -/
def repairGo (tracked : Nat → Bool) (existsRow : Nat × Nat → Bool) :
    List Operation → List Operation → List Operation
  | kept, [] => kept
  | kept, op :: pending =>
      if repairDelete tracked existsRow (kept ++ pending) op
      then repairGo tracked existsRow kept pending
      else repairGo tracked existsRow (kept ++ [op]) pending

/-- dbsync/client/compression.py, `compress` (in-database mode): group
the unversioned operations newest-to-oldest, delete per the reduction
table, run the repair pass, and return the remainder ordered by
`order` ascending. -/
def compress (ops : List Operation) (tracked : Nat → Bool)
    (existsRow : Nat × Nat → Bool) : List Operation :=
  sortByOrder
    (repairGo tracked existsRow []
      ((sortByOrderDesc (ops.filter (fun o => o.version_id = none))).filter
        (fun o => o ∈ reduceKeepDb (groupOf (opKey o)
          (group_by (sortByOrderDesc (ops.filter (fun o => o.version_id = none))))))))

theorem reverse_eq_getLastD_cons (y : Operation) (t : List Operation) :
    ∀ d : Operation,
      (y :: t).reverse = (y :: t).getLastD d :: ((y :: t).dropLast).reverse := by
  induction t generalizing y with
  | nil => intro d; simp [List.getLastD]
  | cons c cs ih =>
      intro d
      have h1 : (y :: c :: cs).reverse = (c :: cs).reverse ++ [y] := by simp
      rw [h1, ih c y]
      have h2 : (c :: cs).getLastD y = (y :: c :: cs).getLastD d := by
        cases cs with
        | nil => simp [List.getLastD]
        | cons e es => simp [List.getLastD]
      rw [h2]
      simp

theorem reverse_cons₂ (x y : Operation) (t : List Operation) :
    (x :: y :: t).reverse =
      (y :: t).getLastD x :: (((y :: t).dropLast).reverse ++ [x]) := by
  have h1 : (x :: y :: t).reverse = (y :: t).reverse ++ [x] := by simp
  rw [h1, reverse_eq_getLastD_cons y t x]
  simp

theorem reduceKeepDb_concat (w : Operation) (mid : List Operation) (x : Operation) :
    reduceKeepDb (w :: (mid ++ [x])) =
      if x.command = Cmd.i then
        if (w :: mid).all (fun z => z.command = Cmd.u) then [x]
        else if w.command = Cmd.d then []
        else w :: (mid ++ [x])
      else if x.command = Cmd.u then
        if (w :: mid).all (fun z => z.command = Cmd.u) then [w]
        else if w.command = Cmd.d then [w]
        else w :: (mid ++ [x])
      else w :: (mid ++ [x]) := by
  cases mid with
  | nil =>
      show reduceKeepDb (w :: x :: []) = _
      rw [reduceKeepDb]
      simp [List.getLastD, List.dropLast]
  | cons m ms =>
      show reduceKeepDb (w :: m :: (ms ++ [x])) = _
      rw [reduceKeepDb]
      have hlast : ((m :: (ms ++ [x])).getLastD w) = x := by
        rw [show m :: (ms ++ [x]) = (m :: ms) ++ [x] by simp]
        exact List.getLastD_concat _ _ _
      have hdrop : (m :: (ms ++ [x])).dropLast = m :: ms := by
        rw [show m :: (ms ++ [x]) = (m :: ms) ++ [x] by simp]
        exact List.dropLast_concat
      rw [hlast, hdrop]
      rfl

/-- `reduceKeepDb` of one group given oldest-to-newest as `x :: y :: t`
and then reversed (as the descending query presents it), phrased by
the group's first command and last command. -/
theorem reduceKeepDb_reverse (x y : Operation) (t : List Operation) :
    reduceKeepDb ((x :: y :: t).reverse) =
      if x.command = Cmd.i then
        if (y :: t).all (fun z => z.command = Cmd.u) then [x]
        else if ((y :: t).getLastD x).command = Cmd.d then []
        else (x :: y :: t).reverse
      else if x.command = Cmd.u then
        if (y :: t).all (fun z => z.command = Cmd.u) then [(y :: t).getLastD x]
        else if ((y :: t).getLastD x).command = Cmd.d then [(y :: t).getLastD x]
        else (x :: y :: t).reverse
      else (x :: y :: t).reverse := by
  rw [reverse_cons₂, reduceKeepDb_concat]
  have hfront : ((y :: t).getLastD x :: ((y :: t).dropLast).reverse) =
      (y :: t).reverse := (reverse_eq_getLastD_cons y t x).symm
  have hall : ∀ p : Operation → Bool,
      ((y :: t).getLastD x :: ((y :: t).dropLast).reverse).all p = (y :: t).all p := by
    intro p
    rw [hfront, List.all_reverse]
  rw [hall, ← reverse_cons₂]

theorem reduceKeepDb_cases (g : List Operation) :
    reduceKeepDb g = [] ∨ (∃ x ∈ g, reduceKeepDb g = [x]) ∨ reduceKeepDb g = g := by
  match g with
  | [] => right; right; rfl
  | [o] => right; left; exact ⟨o, by simp, rfl⟩
  | o :: b :: rest =>
      rw [reduceKeepDb]
      split
      · split
        · right; left
          exact ⟨(b :: rest).getLastD o,
            List.mem_cons_of_mem o (getLastD_cons_mem o b rest), rfl⟩
        · split
          · left; rfl
          · right; right; rfl
      · split
        · split
          · right; left; exact ⟨o, by simp, rfl⟩
          · split
            · right; left; exact ⟨o, by simp, rfl⟩
            · right; right; rfl
        · right; right; rfl

theorem filter_eq_singleton_of_nodup {g : List Operation} {x : Operation}
    (hnd : g.Nodup) (hx : x ∈ g) :
    g.filter (fun o => decide (o = x)) = [x] := by
  induction g with
  | nil => simp at hx
  | cons a as ih =>
      rw [List.nodup_cons] at hnd
      by_cases hax : a = x
      · subst hax
        have h0 : as.filter (fun o => decide (o = a)) = [] := by
          apply List.filter_eq_nil_iff.mpr
          intro o ho
          simp only [decide_eq_true_eq]
          intro h
          exact hnd.1 (h ▸ ho)
        simp [List.filter_cons, h0]
      · rw [List.filter_cons]
        rw [show (decide (a = x)) = false by simpa using hax]
        simp only [Bool.false_eq_true, if_false]
        refine ih hnd.2 ?_
        rcases List.mem_cons.mp hx with rfl | h
        · exact absurd rfl hax
        · exact h

theorem filter_mem_reduceKeepDb {g : List Operation} (hnd : g.Nodup) :
    g.filter (fun o => decide (o ∈ reduceKeepDb g)) = reduceKeepDb g := by
  rcases reduceKeepDb_cases g with h | ⟨x, hxg, h⟩ | h
  · rw [h]
    apply List.filter_eq_nil_iff.mpr
    intro o _
    simp [h]
  · rw [h]
    have h2 : g.filter (fun o => decide (o ∈ [x])) =
        g.filter (fun o => decide (o = x)) := by
      apply List.filter_congr
      intro o _
      simp
    rw [h2]
    exact filter_eq_singleton_of_nodup hnd hxg
  · rw [h]
    apply List.filter_eq_self.mpr
    intro o ho
    simpa using ho

/-! The repair pass is key-local: each decision about an operation
depends only on operations of the same `(row_id, content_type_id)`. -/

theorem subsequentOps_filter {current : List Operation} {op : Operation}
    {k : Nat × Nat} (hk : opKey op = k) :
    subsequentOps (current.filter (fun x => decide (opKey x = k))) op =
      subsequentOps current op := by
  unfold subsequentOps
  rw [List.filter_filter]
  apply List.filter_congr
  intro x _
  by_cases hs : x.content_type_id = op.content_type_id ∧
      x.row_id = op.row_id ∧ op.order < x.order
  · have hxk : opKey x = k := by
      rw [← hk]
      simp [opKey, hs.1, hs.2.1]
    simp [hs, hxk]
  · simp [hs]

theorem repairDelete_filter {tr : Nat → Bool} {ex : Nat × Nat → Bool}
    {current : List Operation} {op : Operation} {k : Nat × Nat}
    (hk : opKey op = k) :
    repairDelete tr ex (current.filter (fun x => decide (opKey x = k))) op =
      repairDelete tr ex current op := by
  unfold repairDelete
  rw [subsequentOps_filter hk]
  have h4 : (∃ x ∈ current.filter (fun x => decide (opKey x = k)),
      x.content_type_id = op.content_type_id ∧ x.command = op.command ∧
      x.row_id = op.row_id ∧ x.order ≠ op.order) ↔
      (∃ x ∈ current, x.content_type_id = op.content_type_id ∧
      x.command = op.command ∧ x.row_id = op.row_id ∧ x.order ≠ op.order) := by
    constructor
    · rintro ⟨x, hx, hP⟩
      exact ⟨x, List.mem_of_mem_filter hx, hP⟩
    · rintro ⟨x, hx, hP⟩
      refine ⟨x, List.mem_filter.mpr ⟨hx, ?_⟩, hP⟩
      have hxk : opKey x = k := by
        rw [← hk]
        simp [opKey, hP.1, hP.2.2.1]
      simpa using hxk
  simp only [h4]

theorem repairGo_filter (tr : Nat → Bool) (ex : Nat × Nat → Bool) (k : Nat × Nat) :
    ∀ pending kept : List Operation,
      (repairGo tr ex kept pending).filter (fun x => decide (opKey x = k)) =
        repairGo tr ex (kept.filter (fun x => decide (opKey x = k)))
          (pending.filter (fun x => decide (opKey x = k))) := by
  intro pending
  induction pending with
  | nil => intro kept; simp [repairGo]
  | cons op pending ih =>
      intro kept
      rw [repairGo]
      by_cases hk : opKey op = k
      · have hfc : (op :: pending).filter (fun x => decide (opKey x = k)) =
            op :: pending.filter (fun x => decide (opKey x = k)) := by
          simp [hk]
        rw [hfc, repairGo, ← List.filter_append, repairDelete_filter hk]
        by_cases hdel : repairDelete tr ex (kept ++ pending) op = true
        · rw [if_pos hdel, if_pos hdel]
          exact ih kept
        · rw [if_neg hdel, if_neg hdel, ih (kept ++ [op])]
          have : (kept ++ [op]).filter (fun x => decide (opKey x = k)) =
              kept.filter (fun x => decide (opKey x = k)) ++ [op] := by
            simp [hk]
          rw [this]
      · have hfc : (op :: pending).filter (fun x => decide (opKey x = k)) =
            pending.filter (fun x => decide (opKey x = k)) := by
          simp [hk]
        rw [hfc]
        by_cases hdel : repairDelete tr ex (kept ++ pending) op = true
        · rw [if_pos hdel]
          exact ih kept
        · rw [if_neg hdel, ih (kept ++ [op])]
          have : (kept ++ [op]).filter (fun x => decide (opKey x = k)) =
              kept.filter (fun x => decide (opKey x = k)) := by
            simp [hk]
          rw [this]

theorem repairGo_nil (tr : Nat → Bool) (ex : Nat × Nat → Bool)
    (kept : List Operation) : repairGo tr ex kept [] = kept := rfl

/-- A lone surviving operation is kept by the repair pass whenever its
content type is tracked and (for `i`/`u`) its backing row exists. -/
theorem repairGo_singleton (tr : Nat → Bool) (ex : Nat × Nat → Bool)
    (x : Operation) (htr : tr x.content_type_id = true)
    (hex : x.command = Cmd.d ∨ ex (opKey x) = true) :
    repairGo tr ex [] [x] = [x] := by
  rw [repairGo]
  have hdel : repairDelete tr ex ([] ++ []) x = false := by
    rcases hex with hd | hextrue
    · simp [repairDelete, subsequentOps, htr, hd]
    · simp [repairDelete, subsequentOps, htr, hextrue]
  rw [hdel]
  simp [repairGo]

/-- Projection of the in-database compression to one group: with
pairwise distinct `order` values (they form the primary key), the
output restricted to key `k` is the repair pass run on the reduction
of that key's group. -/
theorem compress_filter (ops : List Operation) (tr : Nat → Bool)
    (ex : Nat × Nat → Bool) (k : Nat × Nat)
    (hnd : ((ops.filter (fun o => o.version_id = none)).map
      (fun o => o.order)).Nodup) :
    (compress ops tr ex).filter (fun o => opKey o = k) =
      sortByOrder (repairGo tr ex []
        (reduceKeepDb (((sortByOrder (ops.filter (fun o => o.version_id = none))).filter
          (fun o => opKey o = k)).reverse))) := by
  have h1 : (ops.filter (fun o => o.version_id = none)).Nodup :=
    List.Nodup.of_map _ hnd
  have hund : (sortByOrderDesc (ops.filter (fun o => o.version_id = none))).Nodup := by
    unfold sortByOrderDesc
    rw [List.nodup_reverse]
    exact (sortByOrder_perm _).nodup_iff.mpr h1
  unfold compress
  rw [filter_sortByOrder, repairGo_filter tr ex k, List.filter_nil]
  suffices harg : ((sortByOrderDesc (ops.filter (fun o => o.version_id = none))).filter
      (fun o => o ∈ reduceKeepDb (groupOf (opKey o)
        (group_by (sortByOrderDesc (ops.filter (fun o => o.version_id = none))))))).filter
      (fun o => opKey o = k) =
      reduceKeepDb (((sortByOrder (ops.filter (fun o => o.version_id = none))).filter
        (fun o => opKey o = k)).reverse) by
    rw [harg]
  rw [List.filter_filter]
  rw [List.filter_congr (fun a _ => Bool.and_comm _ _), ← List.filter_filter]
  have hgd : (sortByOrderDesc (ops.filter (fun o => o.version_id = none))).filter
      (fun o => opKey o = k) =
      ((sortByOrder (ops.filter (fun o => o.version_id = none))).filter
        (fun o => opKey o = k)).reverse := by
    unfold sortByOrderDesc
    rw [List.filter_reverse]
  rw [hgd]
  have hcongr : ∀ o ∈ ((sortByOrder (ops.filter (fun o => o.version_id = none))).filter
      (fun o => opKey o = k)).reverse,
      (decide (o ∈ reduceKeepDb (groupOf (opKey o)
        (group_by (sortByOrderDesc (ops.filter (fun o => o.version_id = none))))))) =
      (decide (o ∈ reduceKeepDb
        (((sortByOrder (ops.filter (fun o => o.version_id = none))).filter
          (fun o => opKey o = k)).reverse))) := by
    intro o ho
    rw [List.mem_reverse] at ho
    have hko : opKey o = k := by
      simpa using (List.mem_filter.mp ho).2
    rw [hko, groupOf_group_by, hgd]
  rw [List.filter_congr hcongr]
  apply filter_mem_reduceKeepDb
  rw [← hgd]
  exact hund.filter _

theorem reduceSeq_cons₂ (x y : Operation) (t : List Operation) :
    reduceSeq (x :: y :: t) =
      if x.command = Cmd.i then
        (if ((y :: t).getLastD x).command = Cmd.d then [] else [x])
      else if x.command = Cmd.u then
        (if ((y :: t).getLastD x).command = Cmd.d
         then [(y :: t).getLastD x] else [x])
      else
        (if ((y :: t).getLastD x).command = Cmd.d then [x]
         else if ((y :: t).getLastD x).command = Cmd.u
         then [(y :: t).getLastD x]
         else [{ (y :: t).getLastD x with command := Cmd.u }]) := by
  cases hc : x.command <;> simp [reduceSeq, hc]

theorem all_u_of_forall {y : Operation} {t : List Operation}
    (h : ∀ z ∈ y :: t, z.command = Cmd.u) :
    (y :: t).all (fun z => z.command = Cmd.u) = true :=
  List.all_eq_true.mpr (fun z hz => by simpa using h z hz)

theorem not_all_u_of_last {x y : Operation} {t : List Operation}
    (h : ¬ ((y :: t).getLastD x).command = Cmd.u) :
    ¬ ((y :: t).all (fun z => z.command = Cmd.u) = true) := by
  intro hall
  have := List.all_eq_true.mp hall _ (getLastD_cons_mem x y t)
  simp only [decide_eq_true_eq] at this
  exact h this

/-- Claim C1 (amended).  Per `(row_id, content_type_id)` group — `g`
below is the group sorted oldest to newest, `x` its first and
`(y :: t).getLastD x` its last operation — the in-memory
`compressed_operations` follows the whole specification table.  The
in-database `compress` (on unversioned operations with pairwise
distinct `order` values, tracked content types, and backing rows
present) keeps original rows with their `order` values and reduces a
single-operation group to itself, `i` + only `u` to the `i`, `i`…`d`
to nothing, `u` + only `u` to the LAST `u` — not the first — and
`u`…`d` to the final `d`; its reduction step does not rewrite groups
that begin with `d` (they are left to the repair sweep). -/
theorem C1_compression_modes (ops : List Operation) (k : Nat × Nat)
    (tr : Nat → Bool) (ex : Nat × Nat → Bool)
    (hv : ∀ o ∈ ops, o.version_id = none)
    (hnd : (ops.map (fun o => o.order)).Nodup)
    (htr : ∀ n, tr n = true) (hex : ∀ p, ex p = true) :
    (∀ o, (sortByOrder ops).filter (fun z => opKey z = k) = [o] →
      (compressed_operations ops).filter (fun z => opKey z = k) = [o] ∧
      (compress ops tr ex).filter (fun z => opKey z = k) = [o]) ∧
    (∀ x y t, (sortByOrder ops).filter (fun z => opKey z = k) = x :: y :: t →
      (x.command = Cmd.i → (∀ z ∈ y :: t, z.command = Cmd.u) →
        (compressed_operations ops).filter (fun z => opKey z = k) = [x] ∧
        (compress ops tr ex).filter (fun z => opKey z = k) = [x]) ∧
      (x.command = Cmd.i → ((y :: t).getLastD x).command = Cmd.d →
        (compressed_operations ops).filter (fun z => opKey z = k) = [] ∧
        (compress ops tr ex).filter (fun z => opKey z = k) = []) ∧
      (x.command = Cmd.u → (∀ z ∈ y :: t, z.command = Cmd.u) →
        (compressed_operations ops).filter (fun z => opKey z = k) = [x] ∧
        (compress ops tr ex).filter (fun z => opKey z = k) =
          [(y :: t).getLastD x]) ∧
      (x.command = Cmd.u → ((y :: t).getLastD x).command = Cmd.d →
        (compressed_operations ops).filter (fun z => opKey z = k) =
          [(y :: t).getLastD x] ∧
        (compress ops tr ex).filter (fun z => opKey z = k) =
          [(y :: t).getLastD x]) ∧
      (x.command = Cmd.d → ((y :: t).getLastD x).command = Cmd.d →
        (compressed_operations ops).filter (fun z => opKey z = k) = [x]) ∧
      (x.command = Cmd.d → ((y :: t).getLastD x).command = Cmd.u →
        (compressed_operations ops).filter (fun z => opKey z = k) =
          [(y :: t).getLastD x]) ∧
      (x.command = Cmd.d → ((y :: t).getLastD x).command = Cmd.i →
        (compressed_operations ops).filter (fun z => opKey z = k) =
          [{ (y :: t).getLastD x with command := Cmd.u }])) := by
  have hops : ops.filter (fun o => o.version_id = none) = ops :=
    List.filter_eq_self.mpr (fun o ho => by simpa using hv o ho)
  have hdbeq := compress_filter ops tr ex k (by rw [hops]; exact hnd)
  rw [hops] at hdbeq
  constructor
  · intro o hg
    refine ⟨?_, ?_⟩
    · rw [compressed_operations_filter, hg, reduceSeq_singleton]
    · rw [hdbeq, hg, List.reverse_singleton,
        show reduceKeepDb [o] = [o] from rfl,
        repairGo_singleton tr ex o (htr _) (Or.inr (hex _))]
      rfl
  · intro x y t hg
    have hlastmem : (y :: t).getLastD x ∈ y :: t := getLastD_cons_mem x y t
    refine ⟨?_, ?_, ?_, ?_, ?_, ?_, ?_⟩
    · intro hx hall
      have hlu : ((y :: t).getLastD x).command = Cmd.u := hall _ hlastmem
      have hnld : ¬ ((y :: t).getLastD x).command = Cmd.d := by rw [hlu]; simp
      constructor
      · rw [compressed_operations_filter, hg, reduceSeq_cons₂, if_pos hx,
          if_neg hnld]
      · rw [hdbeq, hg, reduceKeepDb_reverse, if_pos hx,
          if_pos (all_u_of_forall hall),
          repairGo_singleton tr ex x (htr _) (Or.inr (hex _))]
        rfl
    · intro hx hld
      have hnall := not_all_u_of_last (x := x) (by rw [hld]; simp)
      constructor
      · rw [compressed_operations_filter, hg, reduceSeq_cons₂, if_pos hx,
          if_pos hld]
      · rw [hdbeq, hg, reduceKeepDb_reverse, if_pos hx, if_neg hnall,
          if_pos hld]
        rfl
    · intro hx hall
      have hni : ¬ x.command = Cmd.i := by rw [hx]; simp
      have hlu : ((y :: t).getLastD x).command = Cmd.u := hall _ hlastmem
      have hnld : ¬ ((y :: t).getLastD x).command = Cmd.d := by rw [hlu]; simp
      constructor
      · rw [compressed_operations_filter, hg, reduceSeq_cons₂, if_neg hni,
          if_pos hx, if_neg hnld]
      · rw [hdbeq, hg, reduceKeepDb_reverse, if_neg hni, if_pos hx,
          if_pos (all_u_of_forall hall),
          repairGo_singleton tr ex _ (htr _) (Or.inr (hex _))]
        rfl
    · intro hx hld
      have hni : ¬ x.command = Cmd.i := by rw [hx]; simp
      have hnall := not_all_u_of_last (x := x) (by rw [hld]; simp)
      constructor
      · rw [compressed_operations_filter, hg, reduceSeq_cons₂, if_neg hni,
          if_pos hx, if_pos hld]
      · rw [hdbeq, hg, reduceKeepDb_reverse, if_neg hni, if_pos hx,
          if_neg hnall, if_pos hld,
          repairGo_singleton tr ex _ (htr _) (Or.inl hld)]
        rfl
    · intro hx hld
      have hni : ¬ x.command = Cmd.i := by rw [hx]; simp
      have hnu : ¬ x.command = Cmd.u := by rw [hx]; simp
      rw [compressed_operations_filter, hg, reduceSeq_cons₂, if_neg hni,
        if_neg hnu, if_pos hld]
    · intro hx hlu
      have hni : ¬ x.command = Cmd.i := by rw [hx]; simp
      have hnu : ¬ x.command = Cmd.u := by rw [hx]; simp
      have hnld : ¬ ((y :: t).getLastD x).command = Cmd.d := by rw [hlu]; simp
      rw [compressed_operations_filter, hg, reduceSeq_cons₂, if_neg hni,
        if_neg hnu, if_neg hnld, if_pos hlu]
    · intro hx hli
      have hni : ¬ x.command = Cmd.i := by rw [hx]; simp
      have hnu : ¬ x.command = Cmd.u := by rw [hx]; simp
      have hnld : ¬ ((y :: t).getLastD x).command = Cmd.d := by rw [hli]; simp
      have hnlu : ¬ ((y :: t).getLastD x).command = Cmd.u := by rw [hli]; simp
      rw [compressed_operations_filter, hg, reduceSeq_cons₂, if_neg hni,
        if_neg hnu, if_neg hnld, if_neg hnlu]

/-- Witness for C1: a two-update group, all hypotheses discharged at a
concrete input; the in-memory mode keeps the first update, the
in-database mode the second. -/
theorem C1_compression_modes_witness :
    (compressed_operations
      [⟨1, 5, 7, none, Cmd.u⟩, ⟨2, 5, 7, none, Cmd.u⟩]).filter
        (fun z => opKey z = (5, 7)) = [⟨1, 5, 7, none, Cmd.u⟩] ∧
    (compress [⟨1, 5, 7, none, Cmd.u⟩, ⟨2, 5, 7, none, Cmd.u⟩]
      (fun _ => true) (fun _ => true)).filter
        (fun z => opKey z = (5, 7)) = [⟨2, 5, 7, none, Cmd.u⟩] := by
  have h := (C1_compression_modes
    [⟨1, 5, 7, none, Cmd.u⟩, ⟨2, 5, 7, none, Cmd.u⟩] (5, 7)
    (fun _ => true) (fun _ => true)
    (by decide) (by decide) (fun _ => rfl) (fun _ => rfl)).2
    ⟨1, 5, 7, none, Cmd.u⟩ ⟨2, 5, 7, none, Cmd.u⟩ [] (by decide)
  have h3 := h.2.2.1 rfl (by decide)
  refine ⟨?_, ?_⟩
  · exact h3.1
  · have := h3.2
    simpa using this

/-- Counterexample to C1 as stated: on the group `d` then `i` (orders
1 and 2), the claim demands that BOTH modes reduce to a synthetic `u`
at order 2.  The in-memory mode does; the in-database `compress`
leaves both operations in place. -/
theorem C1_compression_modes_counterexample :
    compressed_operations [⟨1, 5, 7, none, Cmd.d⟩, ⟨2, 5, 7, none, Cmd.i⟩] =
      [⟨2, 5, 7, none, Cmd.u⟩] ∧
    compress [⟨1, 5, 7, none, Cmd.d⟩, ⟨2, 5, 7, none, Cmd.i⟩]
      (fun _ => true) (fun _ => true) =
      [⟨1, 5, 7, none, Cmd.d⟩, ⟨2, 5, 7, none, Cmd.i⟩] ∧
    ¬ (compress [⟨1, 5, 7, none, Cmd.d⟩, ⟨2, 5, 7, none, Cmd.i⟩]
      (fun _ => true) (fun _ => true) = [⟨2, 5, 7, none, Cmd.u⟩]) := by
  refine ⟨?_, ?_, ?_⟩ <;> decide

/-! ### Direct conflicts and their resolution during merge
(dbsync/client/conflicts.py `find_direct_conflicts`;
dbsync/client/pull.py `merge`, lines 189–205) -/

/-- dbsync/client/conflicts.py, `find_direct_conflicts`: pairs of a
pulled operation and an unversioned local operation, both `u` or `d`,
on the same tracked object. -/
def find_direct_conflicts (pull_ops unversioned_ops : List Operation) :
    List (Operation × Operation) :=
  (pull_ops.filter (fun p => p.command = Cmd.u ∨ p.command = Cmd.d)).flatMap
    (fun p => (unversioned_ops.filter (fun l =>
      (l.command = Cmd.u ∨ l.command = Cmd.d) ∧
      p.row_id = l.row_id ∧ p.content_type_id = l.content_type_id)).map
        (fun l => (p, l)))

theorem mem_find_direct_conflicts {pull_ops unversioned_ops : List Operation}
    {p l : Operation} :
    (p, l) ∈ find_direct_conflicts pull_ops unversioned_ops ↔
      p ∈ pull_ops ∧ l ∈ unversioned_ops ∧
      (p.command = Cmd.u ∨ p.command = Cmd.d) ∧
      (l.command = Cmd.u ∨ l.command = Cmd.d) ∧
      p.row_id = l.row_id ∧ p.content_type_id = l.content_type_id := by
  simp only [find_direct_conflicts, List.mem_flatMap, List.mem_filter,
    List.mem_map, Prod.mk.injEq, decide_eq_true_eq]
  constructor
  · rintro ⟨p1, ⟨hp1, hpc⟩, l1, ⟨hl1, hlc⟩, rfl, rfl⟩
    exact ⟨hp1, hl1, hpc, hlc.1, hlc.2.1, hlc.2.2⟩
  · rintro ⟨hp, hl, hpc, hlc, hr, hc⟩
    exact ⟨p, ⟨hp, hpc⟩, l, ⟨hl, hlc, hr, hc⟩, rfl, rfl⟩

/-- State threaded through the direct-conflict block of `merge`:
the pull operation's (possibly rewritten) command, the `can_perform`
and `reverted` flags, the local operations removed by `purgelocal`,
and the local operations whose command was rewritten to `i`. -/
structure DirectState where
  pullCmd : Cmd
  canPerform : Bool
  reverted : Bool
  purged : List Operation
  rewritten : List Operation
deriving DecidableEq, Repr

/-- One iteration of `for local in direct:` (pull.py lines 193–205). -/
def directStep (st : DirectState) (l : Operation) : DirectState :=
  if st.pullCmd = Cmd.u ∧ l.command = Cmd.u then
    { st with canPerform := false }
  else if st.pullCmd = Cmd.u ∧ l.command = Cmd.d then
    { st with pullCmd := Cmd.i, purged := st.purged ++ [l] }
  else if st.pullCmd = Cmd.d ∧ l.command = Cmd.u then
    { st with rewritten := st.rewritten ++ [l], reverted := true }
  else
    { st with purged := st.purged ++ [l] }

/-- The whole `if direct:` block (pull.py lines 190–205) for one pull
operation: `can_perform` starts `False` when a remote delete has any
direct conflict, then each conflicting local is handled in turn. -/
def applyDirect (pull_op : Operation) (direct : List Operation) : DirectState :=
  direct.foldl directStep
    { pullCmd := pull_op.command,
      canPerform := if direct ≠ [] ∧ pull_op.command = Cmd.d then false else true,
      reverted := false, purged := [], rewritten := [] }

/-- Claim C3 (1/1).  Every detected direct conflict pair targets the
same object with both commands in `{u, d}`, and the four pairings
resolve as specified: `(u,u)` skips the remote and keeps the local,
`(u,d)` rewrites the remote to `i` and purges the local delete,
`(d,u)` rewrites the local to `i` and skips the remote delete, and
`(d,d)` purges the local delete and skips the remote delete. -/
theorem C3_direct_conflict_resolution
    (pull_ops unversioned_ops : List Operation) (p l : Operation)
    (hmem : (p, l) ∈ find_direct_conflicts pull_ops unversioned_ops) :
    (p ∈ pull_ops ∧ l ∈ unversioned_ops ∧
      (p.command = Cmd.u ∨ p.command = Cmd.d) ∧
      (l.command = Cmd.u ∨ l.command = Cmd.d) ∧
      p.row_id = l.row_id ∧ p.content_type_id = l.content_type_id) ∧
    (p.command = Cmd.u → l.command = Cmd.u →
      applyDirect p [l] = ⟨Cmd.u, false, false, [], []⟩) ∧
    (p.command = Cmd.u → l.command = Cmd.d →
      applyDirect p [l] = ⟨Cmd.i, true, false, [l], []⟩) ∧
    (p.command = Cmd.d → l.command = Cmd.u →
      applyDirect p [l] = ⟨Cmd.d, false, true, [], [l]⟩) ∧
    (p.command = Cmd.d → l.command = Cmd.d →
      applyDirect p [l] = ⟨Cmd.d, false, false, [l], []⟩) := by
  refine ⟨mem_find_direct_conflicts.mp hmem, ?_, ?_, ?_, ?_⟩ <;>
    intro hp hl <;> simp [applyDirect, directStep, hp, hl]

/-- Witness for C3 at a concrete conflict pair of each flavour. -/
theorem C3_direct_conflict_resolution_witness :
    applyDirect ⟨1, 5, 7, none, Cmd.u⟩ [⟨2, 5, 7, none, Cmd.d⟩] =
      ⟨Cmd.i, true, false, [⟨2, 5, 7, none, Cmd.d⟩], []⟩ :=
  (C3_direct_conflict_resolution
    [⟨1, 5, 7, none, Cmd.u⟩] [⟨2, 5, 7, none, Cmd.d⟩]
    ⟨1, 5, 7, none, Cmd.u⟩ ⟨2, 5, 7, none, Cmd.d⟩
    (by decide)).2.2.1 rfl rfl

/-! ### Server data model, push signing and push admission
(dbsync/models.py, dbsync/messages/push.py, dbsync/server/handlers.py) -/

/-- dbsync/models.py, class `Node` (the fields the engine reads). -/
structure NodeRec where
  node_id : Nat
  secret : String
deriving DecidableEq, Repr

/-- dbsync/models.py, class `Version` (the fields the engine reads). -/
structure VersionRec where
  version_id : Nat
  node_id : Option Nat
deriving DecidableEq, Repr

/-- The server's synchronization tables. -/
structure ServerState where
  nodes : List NodeRec
  versions : List VersionRec
  operations : List Operation
deriving DecidableEq, Repr

/-- dbsync/core.py, `get_latest_version_id`: the version table ordered
by `version_id` descending, first row — that is, the maximal
`version_id` — or `None` when the table is empty. -/
def get_latest_version_id (st : ServerState) : Option Nat :=
  (st.versions.map (fun v => v.version_id)).max?

/-- The one-character command string. -/
def cmdStr : Cmd → String
  | Cmd.i => "i"
  | Cmd.u => "u"
  | Cmd.d => "d"

/-- dbsync/messages/push.py, `PushMessage` (the fields the engine
reads; `created` and the payload carry no logic verified here). -/
structure PushMessage where
  node_id : Option Nat
  key : Option String
  latest_version_id : Option Nat
  operations : List Operation
deriving DecidableEq, Repr

/-- dbsync/messages/push.py, `PushMessage._portion`: concatenation,
over the operations in list order, of
`"&" + row_id + "#" + content_type_id + "#" + command`. -/
def portion : List Operation → String
  | [] => ""
  | op :: ops =>
      "&" ++ toString op.row_id ++ "#" ++ toString op.content_type_id ++ "#" ++
        cmdStr op.command ++ portion ops

/-- dbsync/messages/push.py, `PushMessage._sign`.  `H` models
`lambda s: hashlib.sha512(s).hexdigest()`, an external collaborator. -/
def pushSign (H : String → String) (secret : Option String)
    (m : PushMessage) : PushMessage :=
  match secret with
  | none => m
  | some s => { m with key := some (H (s ++ portion m.operations)) }

/-- dbsync/messages/push.py, `PushMessage.set_node`. -/
def set_node (H : String → String) (m : PushMessage)
    (node : Option NodeRec) : PushMessage :=
  match node with
  | none => m
  | some n => pushSign H (some n.secret) { m with node_id := some n.node_id }

/-- dbsync/messages/push.py, `PushMessage.islegit`: `none` models the
`.one()` query raising when the declared node is not registered
(`node_id` is the primary key, so at most one row matches). -/
def islegit (H : String → String) (st : ServerState)
    (m : PushMessage) : Option Bool :=
  if m.key = none ∨ m.node_id = none then some false
  else
    match st.nodes.find? (fun n => some n.node_id = m.node_id) with
    | none => none
    | some node => some (m.key = some (H (node.secret ++ portion m.operations)))

/-- The ways `handle_push` can abort: `pushRejected` and
`pullSuggested` are the exception classes of
dbsync/server/handlers.py; `internalError` stands for any other
uncaught exception (e.g. `islegit`'s `.one()` failing). -/
inductive RejectKind where
  | pushRejected
  | pullSuggested
  | internalError
deriving DecidableEq, Repr

/-- dbsync/server/handlers.py, `handle_push` lines 155–174: parsing
and admission.  `data = none` models `PushMessage(data)` raising
`KeyError`. -/
def handle_push_admission (H : String → String) (st : ServerState)
    (data : Option PushMessage) : Except RejectKind PushMessage :=
  match data with
  | none => Except.error RejectKind.pushRejected
  | some message =>
      if get_latest_version_id st ≠ message.latest_version_id then
        match get_latest_version_id st, message.latest_version_id with
        | none, _ => Except.error RejectKind.pushRejected
        | some _, none => Except.error RejectKind.pullSuggested
        | some a, some b =>
            if b < a then Except.error RejectKind.pullSuggested
            else Except.error RejectKind.pushRejected
      else if message.operations = [] then Except.error RejectKind.pushRejected
      else
        match islegit H st message with
        | none => Except.error RejectKind.internalError
        | some false => Except.error RejectKind.pushRejected
        | some true => Except.ok message

/-- dbsync/server/handlers.py, `handle_push` under
`@core.with_transaction()`: admission, then the apply/version phases
(abstracted as `applyPhase`, whose own failures — e.g.
`OperationError` → `PushRejected` — also roll back).  On any error the
transaction is rolled back, so the state returned with an error is the
input state. -/
def handle_push (H : String → String)
    (applyPhase : ServerState → PushMessage → Except RejectKind (ServerState × Nat))
    (data : Option PushMessage) (st : ServerState) :
    ServerState × Except RejectKind Nat :=
  match handle_push_admission H st data with
  | Except.error k => (st, Except.error k)
  | Except.ok msg =>
      match applyPhase st msg with
      | Except.error k => (st, Except.error k)
      | Except.ok (st2, v) => (st2, Except.ok v)

/-- Strict order on optional version ids: a client with no version at
all is behind any server that has one. -/
def optLt (x y : Option Nat) : Bool :=
  match x, y with
  | _, none => false
  | none, some _ => true
  | some a, some b => a < b

/-- A successful admission implies every admission condition. -/
theorem handle_push_admission_ok {H : String → String} {st : ServerState}
    {data : Option PushMessage} {msg : PushMessage}
    (h : handle_push_admission H st data = Except.ok msg) :
    data = some msg ∧ msg.latest_version_id = get_latest_version_id st ∧
      msg.operations ≠ [] ∧ islegit H st msg = some true := by
  match data with
  | none => simp [handle_push_admission] at h
  | some m =>
      rw [handle_push_admission] at h
      by_cases h1 : get_latest_version_id st ≠ m.latest_version_id
      · rw [if_pos h1] at h
        exfalso
        cases hl : get_latest_version_id st with
        | none =>
            cases hm : m.latest_version_id with
            | none => rw [hl, hm] at h1; exact h1 rfl
            | some b => rw [hl, hm] at h; simp at h
        | some a =>
            cases hm : m.latest_version_id with
            | none => rw [hl, hm] at h; simp at h
            | some b =>
                rw [hl, hm] at h
                by_cases hc : b < a <;> simp [hc] at h
      · rw [if_neg h1] at h
        push_neg at h1
        by_cases h2 : m.operations = []
        · rw [if_pos h2] at h
          simp at h
        · rw [if_neg h2] at h
          rcases h3 : islegit H st m with _ | b <;> rw [h3] at h
          · simp at h
          · cases b with
            | false => simp at h
            | true =>
                have hm : m = msg := by simpa using h
                subst hm
                exact ⟨rfl, h1.symm, h2, h3⟩

/-- Claim C2 (1/1).  `handle_push` admits a push only if the message
parsed, its `latest_version_id` equals the server's current latest,
its operations list is non-empty and its signature verifies; when the
client is strictly behind (`optLt`, where "no version" is behind any
version) the rejection is the pull-suggested kind, otherwise the push
is rejected outright; and every rejection returns the server state
unchanged (the transaction is rolled back). -/
theorem C2_handle_push_admission (H : String → String)
    (applyPhase : ServerState → PushMessage → Except RejectKind (ServerState × Nat))
    (data : Option PushMessage) (st : ServerState) :
    (∀ st2 v, handle_push H applyPhase data st = (st2, Except.ok v) →
      ∃ msg, data = some msg ∧
        msg.latest_version_id = get_latest_version_id st ∧
        msg.operations ≠ [] ∧ islegit H st msg = some true) ∧
    (∀ msg, data = some msg →
      msg.latest_version_id ≠ get_latest_version_id st →
      (handle_push H applyPhase data st).2 =
        Except.error (if optLt msg.latest_version_id (get_latest_version_id st)
          then RejectKind.pullSuggested else RejectKind.pushRejected)) ∧
    (∀ k, (handle_push H applyPhase data st).2 = Except.error k →
      (handle_push H applyPhase data st).1 = st) := by
  refine ⟨?_, ?_, ?_⟩
  · intro st2 v hok
    rw [handle_push] at hok
    rcases hadm : handle_push_admission H st data with k1 | msg
    · rw [hadm] at hok
      simp at hok
    · have hcond := handle_push_admission_ok hadm
      exact ⟨msg, hcond⟩
  · intro msg hdata hne
    subst hdata
    rw [handle_push, handle_push_admission]
    have h1 : get_latest_version_id st ≠ msg.latest_version_id :=
      fun h => hne h.symm
    rw [if_pos h1]
    rcases hl : get_latest_version_id st with _ | a <;>
      rcases hm : msg.latest_version_id with _ | b
    · rw [hl, hm] at h1; simp at h1
    · simp [optLt]
    · simp [optLt]
    · rw [hl, hm] at h1
      have hab : b ≠ a := by
        intro h
        exact h1 (by rw [h])
      by_cases hba : b < a
      · simp [optLt, hba]
      · have : ¬ b < a := hba
        simp [optLt, hba]
  · intro k herr
    rw [handle_push] at herr ⊢
    cases hadm : handle_push_admission H st data with
    | error k1 => simp [hadm]
    | ok msg =>
        simp only [hadm] at herr ⊢
        cases happ : applyPhase st msg with
        | error k2 => simp [happ]
        | ok p =>
            obtain ⟨st2, v⟩ := p
            simp only [happ] at herr
            simp at herr

/-- Witness for C2: a client that declares no version while the server
is at version 1 receives the pull-suggested rejection and the server
state is unchanged. -/
theorem C2_handle_push_admission_witness :
    (handle_push (fun s => s) (fun st _ => Except.ok (st, 99))
      (some ⟨some 1, some "k", none, [⟨1, 2, 3, none, Cmd.i⟩]⟩)
      ⟨[⟨1, "sec"⟩], [⟨1, some 1⟩], []⟩).2 =
        Except.error RejectKind.pullSuggested ∧
    (handle_push (fun s => s) (fun st _ => Except.ok (st, 99))
      (some ⟨some 1, some "k", none, [⟨1, 2, 3, none, Cmd.i⟩]⟩)
      ⟨[⟨1, "sec"⟩], [⟨1, some 1⟩], []⟩).1 =
        ⟨[⟨1, "sec"⟩], [⟨1, some 1⟩], []⟩ := by
  have h := C2_handle_push_admission (fun s => s)
    (fun st _ => Except.ok (st, 99))
    (some ⟨some 1, some "k", none, [⟨1, 2, 3, none, Cmd.i⟩]⟩)
    ⟨[⟨1, "sec"⟩], [⟨1, some 1⟩], []⟩
  have h2 := h.2.1 ⟨some 1, some "k", none, [⟨1, 2, 3, none, Cmd.i⟩]⟩
    rfl (by decide)
  refine ⟨?_, ?_⟩
  · rw [h2]
    simp [optLt, get_latest_version_id]
  · refine h.2.2 RejectKind.pullSuggested ?_
    rw [h2]
    simp [optLt, get_latest_version_id]

/-- Claim C6 (1/1).  The key set by `set_node` is the hash of the
node's secret concatenated with the message portion, the portion being
the concatenation over the operations in list order of
`"&" + row_id + "#" + content_type_id + "#" + command`; and `islegit`
accepts exactly when the key recomputed from the server-stored secret
of the declared node equals the message key. -/
theorem C6_push_signing (H : String → String) :
    (portion [] = "" ∧ ∀ op ops, portion (op :: ops) =
      "&" ++ toString op.row_id ++ "#" ++ toString op.content_type_id ++ "#" ++
        cmdStr op.command ++ portion ops) ∧
    (∀ (m : PushMessage) (n : NodeRec),
      (set_node H m (some n)).key = some (H (n.secret ++ portion m.operations)) ∧
      (set_node H m (some n)).node_id = some n.node_id) ∧
    (∀ (st : ServerState) (msg : PushMessage) (node : NodeRec),
      st.nodes.find? (fun x => some x.node_id = msg.node_id) = some node →
      (islegit H st msg = some true ↔
        msg.key = some (H (node.secret ++ portion msg.operations)))) := by
  refine ⟨⟨rfl, ?_⟩, ?_, ?_⟩
  · intro op ops
    rfl
  · intro m n
    exact ⟨rfl, rfl⟩
  · intro st msg node hfind
    rw [islegit]
    by_cases hk : msg.key = none
    · rw [if_pos (Or.inl hk), hk]
      simp
    · have hnid : ¬ (msg.node_id = none) := by
        intro h
        rw [h] at hfind
        have hps := List.find?_some hfind
        simp at hps
      rw [if_neg (by simp [hk, hnid]), hfind]
      constructor
      · intro h
        simpa using h
      · intro h
        simp [h]

/-- Witness for C6: a concrete signed message verifies against the
registered node. -/
theorem C6_push_signing_witness :
    islegit (fun s => s) ⟨[⟨4, "sec"⟩], [], []⟩
      (set_node (fun s => s) ⟨none, none, none, [⟨1, 2, 3, none, Cmd.i⟩]⟩
        (some ⟨4, "sec"⟩)) = some true := by
  have h := (C6_push_signing (fun s => s)).2.2
    ⟨[⟨4, "sec"⟩], [], []⟩
    (set_node (fun s => s) ⟨none, none, none, [⟨1, 2, 3, none, Cmd.i⟩]⟩
      (some ⟨4, "sec"⟩))
    ⟨4, "sec"⟩ (by decide)
  apply h.mpr
  decide

/-! ### Server trim (dbsync/server/trim.py, `trim`) -/

/-- dbsync/server/trim.py lines 25–30: the newest version acknowledged
by a node — the node's versions ordered by `version_id` descending,
first row — or `None` if the node has none. -/
def latestAckVersion (st : ServerState) (n : NodeRec) : Option Nat :=
  ((st.versions.filter (fun v => v.node_id = some n.node_id)).map
    (fun v => v.version_id)).max?

/-- dbsync/server/trim.py, `trim`.  With no registered node at all it
deletes every operation and all versions but the latest; with any
node lacking an acknowledged version it does nothing ("dead nodes
block the trim"); otherwise it deletes operations whose `version_id`
is at most the minimum acknowledged version (null `version_id` never
compares) and versions strictly below it. -/
def trim (st : ServerState) : ServerState :=
  if st.nodes.map (latestAckVersion st) = [] then
    ⟨st.nodes,
     st.versions.filter (fun v => some v.version_id = get_latest_version_id st),
     []⟩
  else if none ∈ st.nodes.map (latestAckVersion st) then st
  else
    match ((st.nodes.map (latestAckVersion st)).filterMap id).min? with
    | none => st
    | some minv =>
        ⟨st.nodes,
         st.versions.filter (fun v => ¬ v.version_id < minv),
         st.operations.filter (fun o => ¬ ∃ v, o.version_id = some v ∧ v ≤ minv)⟩

/-- Claim C7 (1/1).  On a server with at least one registered node:
if some node has no acknowledged version, `trim` deletes nothing; if
every node has acknowledged one, `trim` deletes exactly the operations
with `version_id ≤ min(acknowledged)` and the versions strictly below
that minimum. -/
theorem C7_trim_minimum_acknowledged (st : ServerState) (hn : st.nodes ≠ []) :
    (none ∈ st.nodes.map (latestAckVersion st) → trim st = st) ∧
    (none ∉ st.nodes.map (latestAckVersion st) →
      ∃ minv, ((st.nodes.map (latestAckVersion st)).filterMap id).min? = some minv ∧
        trim st =
          ⟨st.nodes,
           st.versions.filter (fun v => ¬ v.version_id < minv),
           st.operations.filter (fun o =>
             ¬ ∃ v, o.version_id = some v ∧ v ≤ minv)⟩) := by
  have hmapne : st.nodes.map (latestAckVersion st) ≠ [] := by
    intro h
    exact hn (List.map_eq_nil_iff.mp h)
  constructor
  · intro hmem
    rw [trim, if_neg hmapne, if_pos hmem]
  · intro hnone
    have hfm : ((st.nodes.map (latestAckVersion st)).filterMap id) ≠ [] := by
      cases hh : st.nodes.map (latestAckVersion st) with
      | nil => exact absurd hh hmapne
      | cons a rest =>
          cases a with
          | none =>
              exfalso
              exact hnone (by rw [hh]; simp)
          | some v =>
              simp [List.filterMap_cons]
    rcases hmin : ((st.nodes.map (latestAckVersion st)).filterMap id).min? with
        _ | minv
    · exact absurd (List.min?_eq_none_iff.mp hmin) hfm
    · refine ⟨minv, rfl, ?_⟩
      rw [trim, if_neg hmapne, if_neg hnone]
      simp only [hmin]

/-- Witness for C7: one node with an acknowledged version 2 and one
stale version 1; trim removes version 1 and the operations at or
below version 2. -/
theorem C7_trim_minimum_acknowledged_witness :
    trim ⟨[⟨1, "s"⟩], [⟨1, some 1⟩, ⟨2, some 1⟩],
        [⟨1, 9, 9, some 1, Cmd.i⟩, ⟨2, 9, 9, some 2, Cmd.u⟩,
         ⟨3, 9, 9, some 3, Cmd.u⟩, ⟨4, 9, 9, none, Cmd.u⟩]⟩ =
      ⟨[⟨1, "s"⟩], [⟨2, some 1⟩],
        [⟨3, 9, 9, some 3, Cmd.u⟩, ⟨4, 9, 9, none, Cmd.u⟩]⟩ := by
  have h := (C7_trim_minimum_acknowledged
    ⟨[⟨1, "s"⟩], [⟨1, some 1⟩, ⟨2, some 1⟩],
      [⟨1, 9, 9, some 1, Cmd.i⟩, ⟨2, 9, 9, some 2, Cmd.u⟩,
       ⟨3, 9, 9, some 3, Cmd.u⟩, ⟨4, 9, 9, none, Cmd.u⟩]⟩
    (by decide)).2 (by decide)
  rcases h with ⟨minv, hmin, heq⟩
  have hminv : minv = 2 := by
    have : some minv = some 2 := by rw [← hmin]; decide
    simpa using this
  subst hminv
  rw [heq]
  decide

/-! ### Server-side tracking: one fresh version per direct write
(dbsync/server/tracking.py, `make_listener`;
dbsync/server/handlers.py, `handle_push` steps III–IV) -/

/-- The server database as the tracking hooks see it, with the next
auto-increment primary keys for versions and operations. -/
structure ServerDb where
  operations : List Operation
  versions : List VersionRec
  nextVersionId : Nat
  nextOrder : Nat
deriving DecidableEq, Repr

/-- dbsync/server/tracking.py, `make_listener`'s listener body: a
no-op for internal sessions, when listening is off, for unmodified
updates, or for untracked tables (`trackedTable` carries the content
type id of the mapped table when tracked); otherwise it records one
operation and one fresh version and links them. -/
def listener (cmd : Cmd) (internalSession listening isModified : Bool)
    (trackedTable : Option Nat) (row_id : Nat) (st : ServerDb) : ServerDb :=
  if internalSession then st
  else if ¬ listening then st
  else if cmd = Cmd.u ∧ ¬ isModified then st
  else
    match trackedTable with
    | none => st
    | some ct =>
        ⟨st.operations ++ [⟨st.nextOrder, row_id, ct, some st.nextVersionId, cmd⟩],
         st.versions ++ [⟨st.nextVersionId, none⟩],
         st.nextVersionId + 1, st.nextOrder + 1⟩

/-- dbsync/server/handlers.py, `handle_push` steps III–IV as committed:
one new version, and the message's operations re-inserted in ascending
`order` with fresh `order` values, all linked to the new version. -/
def pushCommit (msgNodeId : Option Nat) (msgOps : List Operation)
    (st : ServerDb) : ServerDb :=
  ⟨st.operations ++ ((sortByOrder msgOps).enum.map (fun p =>
      ⟨st.nextOrder + p.1, p.2.row_id, p.2.content_type_id,
       some st.nextVersionId, p.2.command⟩)),
   st.versions ++ [⟨st.nextVersionId, msgNodeId⟩],
   st.nextVersionId + 1, st.nextOrder + msgOps.length⟩

/-- The committed transactions that touch the server's operation and
version tables: a tracked direct write (listener), an accepted push,
and deletion-only maintenance (trim). -/
inductive ServerStep : ServerDb → ServerDb → Prop where
  | write (cmd : Cmd) (internalSession listening isModified : Bool)
      (trackedTable : Option Nat) (row_id : Nat) (st : ServerDb) :
      ServerStep st (listener cmd internalSession listening isModified
        trackedTable row_id st)
  | push (msgNodeId : Option Nat) (msgOps : List Operation) (st : ServerDb) :
      ServerStep st (pushCommit msgNodeId msgOps st)
  | gc (keepOp : Operation → Bool) (keepVer : VersionRec → Bool) (st : ServerDb) :
      ServerStep st ⟨st.operations.filter keepOp, st.versions.filter keepVer,
        st.nextVersionId, st.nextOrder⟩

/-- States reachable from an empty server database by committed
transactions. -/
inductive ReachableDb : ServerDb → Prop where
  | init : ReachableDb ⟨[], [], 0, 0⟩
  | step {st st2 : ServerDb} : ReachableDb st → ServerStep st st2 → ReachableDb st2

theorem listener_eq_or (cmd : Cmd) (intS lis isMod : Bool)
    (tt : Option Nat) (row : Nat) (st : ServerDb) :
    listener cmd intS lis isMod tt row st = st ∨
    ∃ ct, tt = some ct ∧ listener cmd intS lis isMod tt row st =
      ⟨st.operations ++ [⟨st.nextOrder, row, ct, some st.nextVersionId, cmd⟩],
       st.versions ++ [⟨st.nextVersionId, none⟩],
       st.nextVersionId + 1, st.nextOrder + 1⟩ := by
  unfold listener
  split
  · exact Or.inl rfl
  split
  · exact Or.inl rfl
  split
  · exact Or.inl rfl
  cases tt with
  | none => exact Or.inl rfl
  | some ct => exact Or.inr ⟨ct, rfl, rfl⟩

/-- Claim C10 (1/1).  A tracker hook that records an operation creates
exactly one fresh version in the same transaction and links the
operation to it; consequently, in every server state reachable by
committed transactions, no operation has a null `version_id` (and
every version id is below the next fresh id, so the hook's version is
genuinely new). -/
theorem C10_server_operations_versioned :
    (∀ (cmd : Cmd) (isModified : Bool) (row ct : Nat) (st : ServerDb),
      ¬ (cmd = Cmd.u ∧ ¬ isModified = true) →
      listener cmd false true isModified (some ct) row st =
        ⟨st.operations ++ [⟨st.nextOrder, row, ct, some st.nextVersionId, cmd⟩],
         st.versions ++ [⟨st.nextVersionId, none⟩],
         st.nextVersionId + 1, st.nextOrder + 1⟩) ∧
    (∀ st : ServerDb, ReachableDb st →
      (∀ o ∈ st.operations, o.version_id ≠ none) ∧
      (∀ v ∈ st.versions, v.version_id < st.nextVersionId)) := by
  constructor
  · intro cmd isModified row ct st hmod
    rw [listener, if_neg (by simp), if_neg (by simp), if_neg (by simpa using hmod)]
  · intro st hreach
    induction hreach with
    | init => simp
    | step hr hstep ih =>
        cases hstep with
        | write cmd intS lis isMod tt row =>
            rcases listener_eq_or cmd intS lis isMod tt row _ with heq | ⟨ct, _, heq⟩
            · rw [heq]; exact ih
            · rw [heq]
              constructor
              · intro o ho
                rcases List.mem_append.mp ho with ho | ho
                · exact ih.1 o ho
                · simp only [List.mem_singleton] at ho
                  subst ho
                  simp
              · intro v hv
                rcases List.mem_append.mp hv with hv | hv
                · exact Nat.lt_succ_of_lt (ih.2 v hv)
                · simp only [List.mem_singleton] at hv
                  subst hv
                  exact Nat.lt_succ_self _
        | push msgNodeId msgOps =>
            constructor
            · intro o ho
              rcases List.mem_append.mp ho with ho | ho
              · exact ih.1 o ho
              · rcases List.mem_map.mp ho with ⟨p, _, rfl⟩
                simp
            · intro v hv
              rcases List.mem_append.mp hv with hv | hv
              · exact Nat.lt_succ_of_lt (ih.2 v hv)
              · simp only [List.mem_singleton] at hv
                subst hv
                exact Nat.lt_succ_self _
        | gc keepOp keepVer =>
            constructor
            · intro o ho
              exact ih.1 o (List.mem_of_mem_filter ho)
            · intro v hv
              exact ih.2 v (List.mem_of_mem_filter hv)

/-- Witness for C10: the invariant evaluated on the state reached by
one direct write. -/
theorem C10_server_operations_versioned_witness :
    listener Cmd.i false true true (some 7) 3 ⟨[], [], 0, 0⟩ =
      ⟨[⟨0, 3, 7, some 0, Cmd.i⟩], [⟨0, none⟩], 1, 1⟩ ∧
    ∀ o ∈ (listener Cmd.i false true true (some 7) 3
      ⟨[], [], 0, 0⟩).operations, o.version_id ≠ none := by
  have h1 := (C10_server_operations_versioned).1 Cmd.i true 3 7
    ⟨[], [], 0, 0⟩ (by decide)
  have h2 := (C10_server_operations_versioned).2
    (listener Cmd.i false true true (some 7) 3 ⟨[], [], 0, 0⟩)
    (ReachableDb.step ReachableDb.init
      (ServerStep.write Cmd.i false true true (some 7) 3 ⟨[], [], 0, 0⟩))
  exact ⟨h1, h2.1⟩

/-! ### HTTP client timeout defaults (dbsync/client/net.py) -/

/-- dbsync/client/net.py line 29: `default_timeout = 1`. -/
def default_timeout : Int := 1

/-- dbsync/client/net.py, `_defaults` lines 44–49: the caller's
timeout if given, else the module default; a non-positive value is
interpreted as no timeout at all.  The result is what `post_request`
and `get_request` hand to the transport. -/
def resolveTimeout (timeout : Option Int) : Option Int :=
  if (timeout.getD default_timeout) ≤ 0 then none
  else some (timeout.getD default_timeout)

/-- dbsync/client/net.py line 190: `head_request` passes
`default_timeout` to the transport directly. -/
def head_request_timeout : Int := default_timeout

/-- Counterexample to C9 as stated: a call without a caller-specified
timeout resolves to 1 second, not 10. -/
theorem C9_default_timeout_counterexample :
    ¬ (resolveTimeout none = some 10) := by decide

/-- Claim C9 (amended).  When the caller does not specify a timeout,
every HTTP call (`post_request`, `get_request` via `_defaults`, and
`head_request` directly) uses the default timeout of 1 second. -/
theorem C9_default_timeout :
    resolveTimeout none = some 1 ∧ head_request_timeout = 1 ∧
      default_timeout = 1 :=
  ⟨rfl, rfl, rfl⟩

/-! ### Server unique-constraint conflicts during push apply
(dbsync/server/conflicts.py, `find_unique_conflicts`;
dbsync/server/handlers.py, `handle_push` steps I–II;
dbsync/models.py, `Operation.perform`)

One tracked model with single-column primary key `pk` and one unique
constraint over the nullable column `uniq`; the payload and the local
table are lists of its rows. -/

/-- A row of the tracked model. -/
structure Row where
  pk : Nat
  uniq : Option Int
deriving DecidableEq, Repr

/-- dbsync/server/conflicts.py, `find_unique_conflicts`: for each
non-delete incoming operation, the remote unique values are read from
the payload (`getattr(remote_obj, col, None)`, so a missing object or
a null column gives `None` and the constraint is skipped); a local row
with those values under a different primary key is a conflict, and it
is resolvable only when the payload carries a record for that local
primary key — otherwise the conflict is skipped with "push will
fail".  Each resolution is `(local pk, new unique value)`. -/
def find_unique_conflicts_srv (msgOps : List Operation) (payload : List Row)
    (db : List Row) : List (Nat × Option Int) :=
  msgOps.flatMap (fun op =>
    if op.command = Cmd.d then []
    else
      match (payload.find? (fun r => r.pk = op.row_id)).bind (fun r => r.uniq) with
      | none => []
      | some v =>
          match db.find? (fun r => r.uniq = some v) with
          | none => []
          | some localObj =>
              if localObj.pk = op.row_id then []
              else
                match payload.find? (fun r => r.pk = localObj.pk) with
                | none => []
                | some pushObj => [(localObj.pk, pushObj.uniq)])

/-- dbsync/server/handlers.py lines 181–197: set the new unique values
on each conflicting local record, then delete and reinsert them to
dodge transient duplicate keys.  Net effect on the table: conflicting
primary keys are dropped and re-added with the new unique values. -/
def applyUniqueConflicts (conflicts : List (Nat × Option Int))
    (db : List Row) : List Row :=
  db.filter (fun r => ¬ ∃ c ∈ conflicts, c.1 = r.pk) ++
    conflicts.filterMap (fun c =>
      (db.find? (fun r => r.pk = c.1)).map (fun r => Row.mk r.pk c.2))

/-- dbsync/models.py, `Operation.perform` for this model: `i` inserts
the payload object (error if absent), `u` merges it — update in place
when the primary key exists, insert otherwise — and `d` deletes by
primary key, logging but continuing when absent. -/
def performOp (op : Operation) (payload : List Row) (db : List Row) :
    Except String (List Row) :=
  match op.command with
  | Cmd.i =>
      match payload.find? (fun r => r.pk = op.row_id) with
      | none => Except.error "no object backing the operation in container"
      | some obj => Except.ok (db ++ [obj])
  | Cmd.u =>
      match payload.find? (fun r => r.pk = op.row_id) with
      | none => Except.error "no object backing the operation in container"
      | some obj =>
          Except.ok (if (db.find? (fun r => r.pk = op.row_id)).isSome
            then db.map (fun r => if r.pk = op.row_id then obj else r)
            else db ++ [obj])
  | Cmd.d => Except.ok (db.filter (fun r => ¬ r.pk = op.row_id))

/-- Perform the message's operations in list order. -/
def performAll (msgOps : List Operation) (payload : List Row)
    (db : List Row) : Except String (List Row) :=
  match msgOps with
  | [] => Except.ok db
  | op :: rest =>
      match performOp op payload db with
      | Except.error e => Except.error e
      | Except.ok db2 => performAll rest payload db2

/-- dbsync/server/handlers.py, `handle_push` steps I–II followed by
the transaction's flush: resolve unique conflicts, perform the
operations, and let the DBMS enforce the unique constraint — two rows
sharing a non-null `uniq` abort the transaction, rejecting the push. -/
def handle_push_apply (msgOps : List Operation) (payload : List Row)
    (db : List Row) : Except String (List Row) :=
  match performAll msgOps payload
      (applyUniqueConflicts (find_unique_conflicts_srv msgOps payload db) db) with
  | Except.error e => Except.error e
  | Except.ok db2 =>
      if (db2.filterMap (fun r => r.uniq)).Nodup then Except.ok db2
      else Except.error "unique constraint violated"

theorem not_nodup_filterMap_of_two {l : List Row} {r1 r2 : Row} {v : Int}
    (h1 : r1 ∈ l) (h2 : r2 ∈ l) (hne : r1 ≠ r2)
    (hv1 : r1.uniq = some v) (hv2 : r2.uniq = some v) :
    ¬ (l.filterMap (fun r => r.uniq)).Nodup := by
  induction l with
  | nil => simp at h1
  | cons a t ih =>
      intro hnd
      rw [List.filterMap_cons] at hnd
      rcases List.mem_cons.mp h1 with rfl | h1t
      · have h2t : r2 ∈ t := by
          rcases List.mem_cons.mp h2 with h | h
          · exact absurd h.symm hne
          · exact h
        rw [hv1, List.nodup_cons] at hnd
        exact hnd.1 (List.mem_filterMap.mpr ⟨r2, h2t, hv2⟩)
      · rcases List.mem_cons.mp h2 with rfl | h2t
        · rw [hv2, List.nodup_cons] at hnd
          exact hnd.1 (List.mem_filterMap.mpr ⟨r1, h1t, hv1⟩)
        · refine ih h1t h2t ?_
          cases ha : a.uniq with
          | none => rw [ha] at hnd; exact hnd
          | some w => rw [ha] at hnd; exact (List.nodup_cons.mp hnd).2

theorem find_uniq_eq {db : List Row} {lrow : Row} {v : Int}
    (huniq : (db.filterMap (fun r => r.uniq)).Nodup)
    (hmem : lrow ∈ db) (hv : lrow.uniq = some v) :
    db.find? (fun r => r.uniq = some v) = some lrow := by
  induction db with
  | nil => simp at hmem
  | cons a t ih =>
      rw [List.filterMap_cons] at huniq
      rcases List.mem_cons.mp hmem with rfl | hmt
      · rw [List.find?_cons_of_pos _ (by simpa using hv)]
      · by_cases hau : a.uniq = some v
        · exfalso
          rw [hau, List.nodup_cons] at huniq
          exact huniq.1 (List.mem_filterMap.mpr ⟨lrow, hmt, hv⟩)
        · rw [List.find?_cons_of_neg _ (by simpa using hau)]
          refine ih ?_ hmt
          cases ha : a.uniq with
          | none => rw [ha] at huniq; exact huniq
          | some w => rw [ha] at huniq; exact (List.nodup_cons.mp huniq).2

theorem applyUniqueConflicts_nil (db : List Row) :
    applyUniqueConflicts [] db = db := by
  simp [applyUniqueConflicts]

theorem performOp_two {op : Operation} {payload db1 : List Row}
    {obj lr2 : Row} {v : Int}
    (hcmd : ¬ op.command = Cmd.d)
    (hobj : payload.find? (fun r => r.pk = op.row_id) = some obj)
    (hobjv : obj.uniq = some v)
    (hlr : lr2 ∈ db1) (hlrpk : ¬ lr2.pk = op.row_id) (hlrv : lr2.uniq = some v) :
    ∃ db2, performOp op payload db1 = Except.ok db2 ∧
      ¬ (db2.filterMap (fun r => r.uniq)).Nodup := by
  have hobjpk : obj.pk = op.row_id := by simpa using List.find?_some hobj
  have hneq : lr2 ≠ obj := fun h => hlrpk (by rw [h, hobjpk])
  cases hc : op.command with
  | d => exact absurd hc hcmd
  | i =>
      refine ⟨db1 ++ [obj], ?_, ?_⟩
      · simp [performOp, hc, hobj]
      · exact not_nodup_filterMap_of_two (List.mem_append_left _ hlr)
          (List.mem_append_right _ (by simp)) hneq hlrv hobjv
  | u =>
      by_cases hpresent : (db1.find? (fun r => r.pk = op.row_id)).isSome
      · refine ⟨db1.map (fun r => if r.pk = op.row_id then obj else r), ?_, ?_⟩
        · simp [performOp, hc, hobj, hpresent]
        · rcases Option.isSome_iff_exists.mp hpresent with ⟨rf, hrf⟩
          have hrfpk : rf.pk = op.row_id := by simpa using List.find?_some hrf
          have hrfm : rf ∈ db1 := List.mem_of_find?_eq_some hrf
          refine not_nodup_filterMap_of_two ?_ ?_ hneq hlrv hobjv
          · exact List.mem_map.mpr ⟨lr2, hlr, by simp [hlrpk]⟩
          · exact List.mem_map.mpr ⟨rf, hrfm, by simp [hrfpk]⟩
      · refine ⟨db1 ++ [obj], ?_, ?_⟩
        · simp [performOp, hc, hobj, hpresent]
        · exact not_nodup_filterMap_of_two (List.mem_append_left _ hlr)
            (List.mem_append_right _ (by simp)) hneq hlrv hobjv

/-- Claim C8 (1/1).  During server push apply, an incoming non-delete
operation whose unique value collides with a local row under a
different primary key, where the payload either has no record for that
local primary key or has one with the very same unique value, makes
the apply fail with a unique-constraint violation, rejecting the push
(dbsync/server/conflicts.py line 49: `push_obj is None → continue;
push will fail`). -/
theorem C8_unique_conflict_rejects_push
    (db payload : List Row) (op : Operation) (lrow : Row) (v : Int)
    (huniq : (db.filterMap (fun r => r.uniq)).Nodup)
    (hcmd : ¬ op.command = Cmd.d)
    (hremote : (payload.find? (fun r => r.pk = op.row_id)).bind
      (fun r => r.uniq) = some v)
    (hlocal : lrow ∈ db) (hlv : lrow.uniq = some v)
    (hlpk : ¬ lrow.pk = op.row_id)
    (hcase : payload.find? (fun r => r.pk = lrow.pk) = none ∨
      ∃ pushObj, payload.find? (fun r => r.pk = lrow.pk) = some pushObj ∧
        pushObj.uniq = some v) :
    ∃ e, handle_push_apply [op] payload db = Except.error e := by
  rcases Option.bind_eq_some.mp hremote with ⟨robj, hrobj, hrobjv⟩
  have hfindu : db.find? (fun r => r.uniq = some v) = some lrow :=
    find_uniq_eq huniq hlocal hlv
  rcases hcase with hnone | ⟨pushObj, hpush, hpushv⟩
  · have hconf : find_unique_conflicts_srv [op] payload db = [] := by
      simp [find_unique_conflicts_srv, hcmd, hrobj, hrobjv, hfindu, hlpk, hnone]
    rcases performOp_two hcmd hrobj hrobjv hlocal hlpk hlv with
      ⟨db2, hok, hbad⟩
    refine ⟨"unique constraint violated", ?_⟩
    rw [handle_push_apply, hconf, applyUniqueConflicts_nil]
    simp [performAll, hok, hbad]
  · have hconf : find_unique_conflicts_srv [op] payload db =
        [(lrow.pk, some v)] := by
      simp [find_unique_conflicts_srv, hcmd, hrobj, hrobjv, hfindu, hlpk,
        hpush, hpushv]
    have hfindpk : ∃ rf, db.find? (fun r => r.pk = lrow.pk) = some rf := by
      cases hf : db.find? (fun r => r.pk = lrow.pk) with
      | none =>
          exfalso
          have := List.find?_eq_none.mp hf lrow hlocal
          simp at this
      | some rf => exact ⟨rf, rfl⟩
    rcases hfindpk with ⟨rf, hrf⟩
    have hrfpk : rf.pk = lrow.pk := by simpa using List.find?_some hrf
    have hlr2 : (Row.mk lrow.pk (some v)) ∈
        applyUniqueConflicts [(lrow.pk, some v)] db := by
      apply List.mem_append_right
      simp only [List.filterMap_cons, List.filterMap_nil]
      rw [hrf]
      simp [hrfpk]
    rcases performOp_two hcmd hrobj hrobjv hlr2 hlpk rfl with
      ⟨db2, hok, hbad⟩
    refine ⟨"unique constraint violated", ?_⟩
    rw [handle_push_apply, hconf]
    simp [performAll, hok, hbad]

/-- Witness for C8: local row `(pk 1, uniq 5)`, incoming insert of
`(pk 2, uniq 5)` with no payload record for pk 1 — the push fails. -/
theorem C8_unique_conflict_rejects_push_witness :
    ∃ e, handle_push_apply [⟨1, 2, 3, none, Cmd.i⟩]
      [⟨2, some 5⟩] [⟨1, some 5⟩] = Except.error e :=
  C8_unique_conflict_rejects_push [⟨1, some 5⟩] [⟨2, some 5⟩]
    ⟨1, 2, 3, none, Cmd.i⟩ ⟨1, some 5⟩ 5
    (by decide) (by decide) (by decide) (by decide) (by decide) (by decide)
    (Or.inl (by decide))

/-! ### Codecs (dbsync/messages/codecs.py with dbsync/lang.py `guard`)

`_encode_table`/`_decode_table` dispatch on the column type; the
date/time constructors, base64 and `decimal` are Python standard
library collaborators and are modelled from their documented
behaviour. -/

/-- dbsync/lang.py, `guard`: propagate nothingness. -/
def guardOpt (f : α → β) : Option α → Option β
  | none => none
  | some x => some (f x)

/-- A `datetime.date` value. -/
structure PyDate where
  year : Nat
  month : Nat
  day : Nat
deriving DecidableEq, Repr

/-- A `datetime.time` value. -/
structure PyTime where
  hour : Nat
  minute : Nat
  second : Nat
  microsecond : Nat
deriving DecidableEq, Repr

/-- A `datetime.datetime` value. -/
structure PyDateTime where
  year : Nat
  month : Nat
  day : Nat
  hour : Nat
  minute : Nat
  second : Nat
  microsecond : Nat
deriving DecidableEq, Repr

/-- Modelled from the spec: the Gregorian leap-year rule used by
`datetime`. -/
def isLeap (y : Nat) : Bool := (y % 4 = 0 ∧ ¬ y % 100 = 0) ∨ y % 400 = 0

/-- Modelled from the spec: days per month as `datetime` validates. -/
def daysInMonth (y m : Nat) : Nat :=
  if m = 2 then (if isLeap y then 29 else 28)
  else if m = 4 ∨ m = 6 ∨ m = 9 ∨ m = 11 then 30
  else 31

/-- The ranges `datetime.date` accepts. -/
def validDate (y m d : Nat) : Prop :=
  1 ≤ y ∧ y ≤ 9999 ∧ 1 ≤ m ∧ m ≤ 12 ∧ 1 ≤ d ∧ d ≤ daysInMonth y m

/-- The ranges `datetime.time` accepts. -/
def validTime (hh mm ss us : Nat) : Prop :=
  hh < 24 ∧ mm < 60 ∧ ss < 60 ∧ us < 1000000

instance (y m d : Nat) : Decidable (validDate y m d) := by
  unfold validDate; infer_instance

instance (hh mm ss us : Nat) : Decidable (validTime hh mm ss us) := by
  unfold validTime; infer_instance

/-- codecs.py line 29: `Date → [year, month, day]`, under `guard`. -/
def encode_date : Option PyDate → Option (List Nat) :=
  guardOpt (fun d => [d.year, d.month, d.day])

/-- `partial(apply, datetime.date)` under `guard`: a three-element
list rebuilds the date, anything else (wrong arity or invalid field
ranges) raises. -/
def decode_date : Option (List Nat) → Option PyDate
  | none => none
  | some l =>
      match l with
      | [y, m, d] => if validDate y m d then some (PyDate.mk y m d) else none
      | _ => none

/-- codecs.py lines 31–33: `DateTime → [y, m, d, H, M, S, µs]`. -/
def encode_datetime : Option PyDateTime → Option (List Nat) :=
  guardOpt (fun d => [d.year, d.month, d.day, d.hour, d.minute, d.second,
    d.microsecond])

/-- `partial(apply, datetime.datetime)` under `guard`. -/
def decode_datetime : Option (List Nat) → Option PyDateTime
  | none => none
  | some l =>
      match l with
      | [y, m, d, hh, mm, ss, us] =>
          if validDate y m d ∧ validTime hh mm ss us
          then some (PyDateTime.mk y m d hh mm ss us) else none
      | _ => none

/-- codecs.py lines 35–36: `Time → [H, M, S, µs]`. -/
def encode_time : Option PyTime → Option (List Nat) :=
  guardOpt (fun t => [t.hour, t.minute, t.second, t.microsecond])

/-- `partial(apply, datetime.time)` under `guard`. -/
def decode_time : Option (List Nat) → Option PyTime
  | none => none
  | some l =>
      match l with
      | [hh, mm, ss, us] =>
          if validTime hh mm ss us then some (PyTime.mk hh mm ss us) else none
      | _ => none

/-! Standard base64 (`base64.standard_b64encode` / `_b64decode`),
modelled from the spec over byte lists.  Bytes are naturals below
256. -/

/-- The standard base64 alphabet. -/
def b64chars : List Char :=
  "ABCDEFGHIJKLMNOPQRSTUVWXYZabcdefghijklmnopqrstuvwxyz0123456789+/".toList

/-- Sextet to alphabet character. -/
def sixToChar (n : Nat) : Char := b64chars.getD n 'A'

/-- Alphabet character back to its sextet. -/
def charToSix (c : Char) : Option Nat := b64chars.findIdx? (fun x => x = c)

/-- Modelled from the spec: `base64.standard_b64encode`, three bytes
to four characters with `=` padding. -/
def b64encode : List Nat → List Char
  | b1 :: b2 :: b3 :: rest =>
      sixToChar (b1 / 4) :: sixToChar ((b1 % 4) * 16 + b2 / 16) ::
        sixToChar ((b2 % 16) * 4 + b3 / 64) :: sixToChar (b3 % 64) ::
        b64encode rest
  | [b1, b2] =>
      [sixToChar (b1 / 4), sixToChar ((b1 % 4) * 16 + b2 / 16),
       sixToChar ((b2 % 16) * 4), '=']
  | [b1] => [sixToChar (b1 / 4), sixToChar ((b1 % 4) * 16), '=', '=']
  | [] => []

/-- Modelled from the spec: `base64.standard_b64decode`, four
characters to three bytes, discarding the padding bits as `binascii`
does; malformed input (wrong length, bad character) raises. -/
def b64decode : List Char → Option (List Nat)
  | [] => some []
  | c1 :: c2 :: c3 :: c4 :: rest =>
      match charToSix c1, charToSix c2 with
      | some s1, some s2 =>
          if c3 = '=' then
            if c4 = '=' ∧ rest = [] then some [s1 * 4 + s2 / 16] else none
          else
            match charToSix c3 with
            | some s3 =>
                if c4 = '=' then
                  if rest = []
                  then some [s1 * 4 + s2 / 16, (s2 % 16) * 16 + s3 / 4]
                  else none
                else
                  match charToSix c4 with
                  | some s4 =>
                      match b64decode rest with
                      | some bs => some ((s1 * 4 + s2 / 16) ::
                          ((s2 % 16) * 16 + s3 / 4) :: ((s3 % 4) * 64 + s4) :: bs)
                      | none => none
                  | none => none
            | none => none
      | _, _ => none
  | _ => none

theorem charToSix_sixToChar {n : Nat} (h : n < 64) :
    charToSix (sixToChar n) = some n := by
  have : ∀ m : Fin 64, charToSix (sixToChar m.val) = some m.val := by decide
  exact this ⟨n, h⟩

theorem sixToChar_ne_eq {n : Nat} (h : n < 64) : ¬ (sixToChar n = '=') := by
  have : ∀ m : Fin 64, ¬ (sixToChar m.val = '=') := by decide
  exact this ⟨n, h⟩

/-- Decoding inverts encoding on byte lists. -/
theorem b64decode_b64encode : ∀ (bs : List Nat), (∀ b ∈ bs, b < 256) →
    b64decode (b64encode bs) = some bs
  | [], _ => rfl
  | [b1], h => by
      have hb1 : b1 < 256 := h b1 (by simp)
      have e1 := charToSix_sixToChar (n := b1 / 4) (by omega)
      have e2 := charToSix_sixToChar (n := (b1 % 4) * 16) (by omega)
      simp [b64encode, b64decode, e1, e2]
      omega
  | [b1, b2], h => by
      have hb1 : b1 < 256 := h b1 (by simp)
      have hb2 : b2 < 256 := h b2 (by simp)
      have e1 := charToSix_sixToChar (n := b1 / 4) (by omega)
      have e2 := charToSix_sixToChar (n := (b1 % 4) * 16 + b2 / 16) (by omega)
      have e3 := charToSix_sixToChar (n := (b2 % 16) * 4) (by omega)
      have ne3 := sixToChar_ne_eq (n := (b2 % 16) * 4) (by omega)
      simp [b64encode, b64decode, e1, e2, e3, ne3]
      omega
  | b1 :: b2 :: b3 :: rest, h => by
      have hb1 : b1 < 256 := h b1 (by simp)
      have hb2 : b2 < 256 := h b2 (by simp)
      have hb3 : b3 < 256 := h b3 (by simp)
      have hrest := b64decode_b64encode rest
        (fun b hb => h b (by simp [hb]))
      have e1 := charToSix_sixToChar (n := b1 / 4) (by omega)
      have e2 := charToSix_sixToChar (n := (b1 % 4) * 16 + b2 / 16) (by omega)
      have e3 := charToSix_sixToChar (n := (b2 % 16) * 4 + b3 / 64) (by omega)
      have e4 := charToSix_sixToChar (n := b3 % 64) (by omega)
      have ne3 := sixToChar_ne_eq (n := (b2 % 16) * 4 + b3 / 64) (by omega)
      have ne4 := sixToChar_ne_eq (n := b3 % 64) (by omega)
      rw [b64encode, b64decode]
      rw [e1, e2]
      simp only [ne3, if_false, e3, ne4, e4, hrest]
      simp
      omega

/-! Python `decimal`: finite values and their string form.  `str` is
the General Decimal Arithmetic to-scientific-string conversion that
CPython implements; the `Decimal` constructor parses numeric strings.
Both are standard-library collaborators, modelled from the spec
("Numeric/Decimal ↔ decimal string"). -/

/-- A finite `decimal.Decimal`: sign (true = negative), coefficient,
exponent.  Parsing never produces leading zeros in the coefficient
(`str(int(...))`), so a naturalic coefficient is faithful. -/
structure PyDecimal where
  sign : Bool
  coeff : Nat
  exp : Int
deriving DecidableEq, Repr

/-- A decimal digit as a character. -/
def digitChar : Nat → Char
  | 0 => '0'
  | 1 => '1'
  | 2 => '2'
  | 3 => '3'
  | 4 => '4'
  | 5 => '5'
  | 6 => '6'
  | 7 => '7'
  | 8 => '8'
  | _ => '9'

/-- The coefficient's digit string, most significant first; `0` is
`"0"`. -/
def decDigits (n : Nat) : List Char :=
  if n = 0 then ['0'] else (Nat.digits 10 n).reverse.map digitChar

/-- Numeric value of a digit character. -/
def digitVal (c : Char) : Nat := c.toNat - 48

/-- Value of a digit string, most significant first. -/
def digitsToNat (l : List Char) : Nat :=
  l.foldl (fun acc c => acc * 10 + digitVal c) 0

/-- `"%+d"`: an always-signed integer rendering. -/
def intSignedDigits (z : Int) : List Char :=
  if z < 0 then '-' :: decDigits z.natAbs else '+' :: decDigits z.natAbs

/-- The dot position of the to-scientific-string conversion:
`leftdigits` (that is, `exp` plus the digit count) in the plain
regime, 1 in the scientific one. -/
def dotplaceOf (coeff : Nat) (exp : Int) : Int :=
  if exp ≤ 0 ∧ exp + ((decDigits coeff).length : Int) > -6
  then exp + ((decDigits coeff).length : Int) else 1

/-- The body (sign and exponent field stripped) of the
to-scientific-string conversion. -/
def sciBody (coeff : Nat) (exp : Int) : List Char :=
  if dotplaceOf coeff exp ≤ 0 then
    '0' :: '.' :: (List.replicate (-(dotplaceOf coeff exp)).toNat '0' ++
      decDigits coeff)
  else if dotplaceOf coeff exp ≥ ((decDigits coeff).length : Int) then
    decDigits coeff ++
      List.replicate ((dotplaceOf coeff exp) - (decDigits coeff).length).toNat '0'
  else
    (decDigits coeff).take (dotplaceOf coeff exp).toNat ++
      '.' :: (decDigits coeff).drop (dotplaceOf coeff exp).toNat

/-- The fraction length the body carries, used to recover the
exponent. -/
def sciFracLen (coeff : Nat) (exp : Int) : Nat :=
  if dotplaceOf coeff exp ≤ 0 then
    (-(dotplaceOf coeff exp)).toNat + (decDigits coeff).length
  else if dotplaceOf coeff exp ≥ ((decDigits coeff).length : Int) then 0
  else (decDigits coeff).length - (dotplaceOf coeff exp).toNat

/-- The exponent field of the to-scientific-string conversion. -/
def sciExp (coeff : Nat) (exp : Int) : List Char :=
  if exp + ((decDigits coeff).length : Int) = dotplaceOf coeff exp then []
  else
    'E' :: intSignedDigits (exp + ((decDigits coeff).length : Int) -
      dotplaceOf coeff exp)

/-- Body and exponent field together. -/
def unsignedSci (coeff : Nat) (exp : Int) : List Char :=
  sciBody coeff exp ++ sciExp coeff exp

/-- Modelled from the spec: `str` of a finite `Decimal`. -/
def decToSci (d : PyDecimal) : List Char :=
  (if d.sign then ['-'] else []) ++ unsignedSci d.coeff d.exp

/-- Split at the first character satisfying `p`; `none` when absent. -/
def splitOnP (p : Char → Bool) : List Char → Option (List Char × List Char)
  | [] => none
  | a :: rest =>
      if p a then some ([], rest)
      else
        match splitOnP p rest with
        | some pr => some (a :: pr.1, pr.2)
        | none => none

/-- A non-empty all-digit run as a natural number. -/
def parseUnsignedInt (l : List Char) : Option Nat :=
  if l ≠ [] ∧ l.all Char.isDigit then some (digitsToNat l) else none

/-- The exponent field after `E`: an optionally signed digit run. -/
def parseExpPart (l : List Char) : Option Int :=
  match l with
  | [] => none
  | c :: rest =>
      if c = '+' then (parseUnsignedInt rest).map (fun n : Nat => (n : Int))
      else if c = '-' then (parseUnsignedInt rest).map (fun n : Nat => -(n : Int))
      else (parseUnsignedInt l).map (fun n : Nat => (n : Int))

/-- The mantissa: integer digits, optional dot, fraction digits, at
least one digit overall.  Returns the joint coefficient and the
fraction length. -/
def parseMantissa (l : List Char) : Option (Nat × Nat) :=
  match splitOnP (fun ch => ch = '.') l with
  | none => (parseUnsignedInt l).map (fun n => (n, 0))
  | some pr =>
      if (pr.1 ++ pr.2) ≠ [] ∧ (pr.1 ++ pr.2).all Char.isDigit then
        some (digitsToNat (pr.1 ++ pr.2), pr.2.length)
      else none

/-- An unsigned numeric string: mantissa, then an optional exponent
marked by `E` or `e`.  The exponent of the resulting decimal is the
written exponent minus the fraction length. -/
def decimalParseUnsigned (l : List Char) : Option PyDecimal :=
  match splitOnP (fun ch => ch = 'E' ∨ ch = 'e') l with
  | none => (parseMantissa l).map (fun p => PyDecimal.mk false p.1 (-(p.2 : Int)))
  | some pr =>
      match parseMantissa pr.1, parseExpPart pr.2 with
      | some p, some e => some (PyDecimal.mk false p.1 (e - (p.2 : Int)))
      | _, _ => none

/-- Modelled from the spec: the `Decimal` constructor on finite
numeric strings (an optional sign, then the unsigned form). -/
def decimalParse (s : List Char) : Option PyDecimal :=
  match s with
  | [] => none
  | c :: rest =>
      if c = '-' then
        (decimalParseUnsigned rest).map (fun x => PyDecimal.mk true x.coeff x.exp)
      else if c = '+' then decimalParseUnsigned rest
      else decimalParseUnsigned s

theorem digitChar_isDigit (d : Nat) : (digitChar d).isDigit = true := by
  unfold digitChar
  split <;> decide

theorem digitVal_digitChar {d : Nat} (h : d < 10) :
    digitVal (digitChar d) = d := by
  interval_cases d <;> decide

theorem decDigits_ne_nil (n : Nat) : decDigits n ≠ [] := by
  unfold decDigits
  split
  · simp
  · rename_i hn
    have hdig : Nat.digits 10 n ≠ [] := Nat.digits_ne_nil_iff_ne_zero.mpr hn
    simp [hdig]

theorem decDigits_all_isDigit (n : Nat) :
    ∀ c ∈ decDigits n, c.isDigit = true := by
  unfold decDigits
  split
  · intro c hc
    simp only [List.mem_singleton] at hc
    subst hc
    decide
  · intro c hc
    rcases List.mem_map.mp (by simpa using hc) with ⟨d, _, rfl⟩
    exact digitChar_isDigit d

theorem foldl_digitChars (ds : List Nat) (h : ∀ d ∈ ds, d < 10) :
    ∀ acc : Nat,
      List.foldl (fun acc c => acc * 10 + digitVal c) acc
        ((ds.reverse).map digitChar) =
      acc * 10 ^ ds.length + Nat.ofDigits 10 ds := by
  induction ds with
  | nil => intro acc; simp [Nat.ofDigits]
  | cons d rest ih =>
      intro acc
      have hd : d < 10 := h d (by simp)
      rw [List.reverse_cons, List.map_append, List.foldl_append]
      rw [ih (fun x hx => h x (by simp [hx]))]
      simp only [List.map_cons, List.map_nil, List.foldl_cons, List.foldl_nil]
      rw [digitVal_digitChar hd, Nat.ofDigits_cons, List.length_cons, pow_succ]
      ring

theorem digitsToNat_decDigits (n : Nat) : digitsToNat (decDigits n) = n := by
  unfold decDigits digitsToNat
  split
  · rename_i hn
    subst hn
    decide
  · rw [foldl_digitChars (Nat.digits 10 n)
      (fun d hd => Nat.digits_lt_base (by norm_num) hd) 0]
    simp [Nat.ofDigits_digits]

theorem digitsToNat_cons_zero (l : List Char) :
    digitsToNat ('0' :: l) = digitsToNat l := rfl

theorem digitsToNat_zeros (k : Nat) (l : List Char) :
    digitsToNat (List.replicate k '0' ++ l) = digitsToNat l := by
  induction k with
  | zero => simp
  | succ k ih =>
      rw [List.replicate_succ, List.cons_append, digitsToNat_cons_zero, ih]

theorem splitOnP_of_forall {p : Char → Bool} {l : List Char}
    (h : ∀ c ∈ l, ¬ p c = true) : splitOnP p l = none := by
  induction l with
  | nil => rfl
  | cons a rest ih =>
      rw [splitOnP, if_neg (h a (by simp)),
        ih (fun c hc => h c (by simp [hc]))]

theorem splitOnP_append {p : Char → Bool} {pre : List Char} {c : Char}
    {suf : List Char} (hpre : ∀ x ∈ pre, ¬ p x = true) (hc : p c = true) :
    splitOnP p (pre ++ c :: suf) = some (pre, suf) := by
  induction pre with
  | nil => rw [List.nil_append, splitOnP, if_pos hc]
  | cons a t ih =>
      rw [List.cons_append, splitOnP, if_neg (hpre a (by simp)),
        ih (fun x hx => hpre x (by simp [hx]))]

theorem parseUnsignedInt_decDigits (n : Nat) :
    parseUnsignedInt (decDigits n) = some n := by
  unfold parseUnsignedInt
  rw [if_pos ⟨decDigits_ne_nil n,
    List.all_eq_true.mpr (fun c hc => by simpa using decDigits_all_isDigit n c hc)⟩,
    digitsToNat_decDigits]

theorem parseExpPart_intSignedDigits (z : Int) :
    parseExpPart (intSignedDigits z) = some z := by
  unfold intSignedDigits
  by_cases hz : z < 0
  · rw [if_pos hz, parseExpPart]
    rw [if_neg (by decide), if_pos rfl, parseUnsignedInt_decDigits]
    simp only [Option.map_some']
    congr 1
    omega
  · rw [if_neg hz, parseExpPart]
    rw [if_pos rfl, parseUnsignedInt_decDigits]
    simp only [Option.map_some']
    congr 1
    omega

theorem sciBody_chars (c : Nat) (e : Int) :
    ∀ x ∈ sciBody c e, x.isDigit = true ∨ x = '.' := by
  unfold sciBody
  intro x hx
  split at hx
  · rcases List.mem_cons.mp hx with rfl | hx
    · left; decide
    rcases List.mem_cons.mp hx with rfl | hx
    · right; rfl
    rcases List.mem_append.mp hx with hx | hx
    · left
      rw [List.eq_of_mem_replicate hx]
      decide
    · left; exact decDigits_all_isDigit c x hx
  · split at hx
    · rcases List.mem_append.mp hx with hx | hx
      · left; exact decDigits_all_isDigit c x hx
      · left
        rw [List.eq_of_mem_replicate hx]
        decide
    · rcases List.mem_append.mp hx with hx | hx
      · left
        exact decDigits_all_isDigit c x ((List.take_sublist _ _).subset hx)
      · rcases List.mem_cons.mp hx with rfl | hx
        · right; rfl
        · left
          exact decDigits_all_isDigit c x ((List.drop_sublist _ _).subset hx)

theorem sciBody_ne_nil (c : Nat) (e : Int) : sciBody c e ≠ [] := by
  unfold sciBody
  split
  · simp
  · split
    · simp [decDigits_ne_nil c]
    · intro h
      rcases List.append_eq_nil.mp h with ⟨_, h2⟩
      simp at h2

theorem parseMantissa_split {l pre suf : List Char}
    (h : splitOnP (fun ch => ch = '.') l = some (pre, suf))
    (hne : pre ++ suf ≠ []) (hall : ∀ y ∈ pre ++ suf, y.isDigit = true) :
    parseMantissa l = some (digitsToNat (pre ++ suf), suf.length) := by
  unfold parseMantissa
  rw [h]
  exact if_pos ⟨hne, List.all_eq_true.mpr
    (fun y hy => by simpa using hall y hy)⟩

theorem parseMantissa_nosplit {l : List Char}
    (h : splitOnP (fun ch => ch = '.') l = none) :
    parseMantissa l = (parseUnsignedInt l).map (fun n => (n, 0)) := by
  unfold parseMantissa
  rw [h]

theorem parseMantissa_sciBody (c : Nat) (e : Int) :
    parseMantissa (sciBody c e) = some (c, sciFracLen c e) := by
  have hL : 0 < (decDigits c).length := List.length_pos.mpr (decDigits_ne_nil c)
  unfold sciBody sciFracLen
  by_cases h1 : dotplaceOf c e ≤ 0
  · rw [if_pos h1, if_pos h1]
    have hsplit : splitOnP (fun ch => ch = '.')
        ('0' :: '.' :: (List.replicate (-(dotplaceOf c e)).toNat '0' ++
          decDigits c)) =
        some (['0'],
          List.replicate (-(dotplaceOf c e)).toNat '0' ++ decDigits c) := by
      rw [show ('0' :: '.' :: (List.replicate (-(dotplaceOf c e)).toNat '0' ++
          decDigits c)) = ['0'] ++ '.' :: (List.replicate
            (-(dotplaceOf c e)).toNat '0' ++ decDigits c) from rfl]
      refine splitOnP_append ?_ (by simp)
      intro y hy
      simp only [List.mem_singleton] at hy
      subst hy
      decide
    have hallmem : ∀ y ∈ (['0'] ++ (List.replicate (-(dotplaceOf c e)).toNat '0' ++
        decDigits c)), y.isDigit = true := by
      intro y hy
      rcases List.mem_append.mp hy with hy | hy
      · simp only [List.mem_singleton] at hy
        subst hy
        decide
      · rcases List.mem_append.mp hy with hy | hy
        · rw [List.eq_of_mem_replicate hy]
          decide
        · exact decDigits_all_isDigit c y hy
    rw [parseMantissa_split hsplit (by simp) hallmem]
    have hval : digitsToNat (['0'] ++ (List.replicate (-(dotplaceOf c e)).toNat '0'
        ++ decDigits c)) = c := by
      rw [show (['0'] : List Char) ++ (List.replicate (-(dotplaceOf c e)).toNat '0'
          ++ decDigits c) = '0' :: (List.replicate (-(dotplaceOf c e)).toNat '0'
          ++ decDigits c) from rfl,
        digitsToNat_cons_zero, digitsToNat_zeros, digitsToNat_decDigits]
    rw [hval]
    simp
  · rw [if_neg h1, if_neg h1]
    by_cases h2 : dotplaceOf c e ≥ ((decDigits c).length : Int)
    · rw [if_pos h2, if_pos h2]
      have hpad : ((dotplaceOf c e) - (decDigits c).length).toNat = 0 := by
        unfold dotplaceOf at h1 h2 ⊢
        by_cases hbr : e ≤ 0 ∧ e + ((decDigits c).length : Int) > -6
        · rw [if_pos hbr] at h1 h2 ⊢
          omega
        · rw [if_neg hbr] at h1 h2 ⊢
          omega
      rw [hpad]
      simp only [List.replicate, List.append_nil]
      rw [parseMantissa_nosplit (splitOnP_of_forall ?notdot)]
      case notdot =>
        intro y hy
        have := decDigits_all_isDigit c y hy
        simp only [decide_eq_true_eq]
        intro hdot
        subst hdot
        exact absurd this (by decide)
      rw [parseUnsignedInt_decDigits]
      rfl
    · rw [if_neg h2, if_neg h2]
      have hsplit : splitOnP (fun ch => ch = '.')
          ((decDigits c).take (dotplaceOf c e).toNat ++
            '.' :: (decDigits c).drop (dotplaceOf c e).toNat) =
          some ((decDigits c).take (dotplaceOf c e).toNat,
            (decDigits c).drop (dotplaceOf c e).toNat) := by
        refine splitOnP_append ?_ (by simp)
        intro y hy
        have := decDigits_all_isDigit c y ((List.take_sublist _ _).subset hy)
        simp only [decide_eq_true_eq]
        intro hdot
        subst hdot
        exact absurd this (by decide)
      have halld : ∀ y ∈ ((decDigits c).take (dotplaceOf c e).toNat ++
          (decDigits c).drop (dotplaceOf c e).toNat), y.isDigit = true := by
        intro y hy
        rw [List.take_append_drop] at hy
        exact decDigits_all_isDigit c y hy
      rw [parseMantissa_split hsplit
        (by rw [List.take_append_drop]; exact decDigits_ne_nil c) halld]
      rw [show ((decDigits c).take (dotplaceOf c e).toNat ++
          (decDigits c).drop (dotplaceOf c e).toNat) = decDigits c from
        List.take_append_drop _ _]
      rw [digitsToNat_decDigits, List.length_drop]

theorem decimalParseUnsigned_nosplit {l : List Char}
    (h : splitOnP (fun ch => ch = 'E' ∨ ch = 'e') l = none) :
    decimalParseUnsigned l =
      (parseMantissa l).map (fun p => PyDecimal.mk false p.1 (-(p.2 : Int))) := by
  unfold decimalParseUnsigned
  rw [h]

theorem decimalParseUnsigned_split {l pre suf : List Char}
    (h : splitOnP (fun ch => ch = 'E' ∨ ch = 'e') l = some (pre, suf))
    {p : Nat × Nat} {ex : Int}
    (hm : parseMantissa pre = some p) (he : parseExpPart suf = some ex) :
    decimalParseUnsigned l = some (PyDecimal.mk false p.1 (ex - (p.2 : Int))) := by
  simp only [decimalParseUnsigned, h, hm, he]

theorem decimalParseUnsigned_unsignedSci (c : Nat) (e : Int) :
    decimalParseUnsigned (unsignedSci c e) = some ⟨false, c, e⟩ := by
  have hL : 0 < (decDigits c).length := List.length_pos.mpr (decDigits_ne_nil c)
  have hbodyE : ∀ y ∈ sciBody c e, ¬ (fun ch => (ch = 'E' ∨ ch = 'e' : Bool)) y = true := by
    intro y hy
    rcases sciBody_chars c e y hy with hd | hd
    · simp only [Bool.or_eq_true, decide_eq_true_eq]
      rintro (rfl | rfl) <;> simp at hd
    · subst hd
      decide
  unfold unsignedSci sciExp
  by_cases hE : e + ((decDigits c).length : Int) = dotplaceOf c e
  · rw [if_pos hE, List.append_nil]
    rw [decimalParseUnsigned_nosplit (splitOnP_of_forall hbodyE),
      parseMantissa_sciBody]
    simp only [Option.map_some']
    have harith : -((sciFracLen c e : Int)) = e := by
      have hE' := hE
      unfold dotplaceOf at hE'
      unfold sciFracLen dotplaceOf
      split_ifs at hE' ⊢ <;> push_cast <;> omega
    rw [harith]
  · rw [if_neg hE]
    have hsplit : splitOnP (fun ch => ch = 'E' ∨ ch = 'e')
        (sciBody c e ++ 'E' :: intSignedDigits
          (e + ((decDigits c).length : Int) - dotplaceOf c e)) =
        some (sciBody c e, intSignedDigits
          (e + ((decDigits c).length : Int) - dotplaceOf c e)) :=
      splitOnP_append hbodyE (by decide)
    rw [decimalParseUnsigned_split hsplit (parseMantissa_sciBody c e)
      (parseExpPart_intSignedDigits _)]
    have harith : (e + ((decDigits c).length : Int) - dotplaceOf c e) -
        (sciFracLen c e : Int) = e := by
      have hE' := hE
      unfold dotplaceOf at hE'
      unfold sciFracLen dotplaceOf
      split_ifs at hE' ⊢ <;> push_cast <;> omega
    rw [harith]

theorem decimalParse_cons {x : Char} {rest : List Char}
    (h1 : ¬ x = '-') (h2 : ¬ x = '+') :
    decimalParse (x :: rest) = decimalParseUnsigned (x :: rest) := by
  simp only [decimalParse]
  rw [if_neg (by simpa using h1), if_neg (by simpa using h2)]

theorem decimalParse_neg (rest : List Char) :
    decimalParse ('-' :: rest) =
      (decimalParseUnsigned rest).map
        (fun x => PyDecimal.mk true x.coeff x.exp) := by
  simp [decimalParse]

theorem decimalParse_decToSci (d : PyDecimal) : decimalParse (decToSci d) = some d := by
  obtain ⟨sgn, c, e⟩ := d
  cases sgn
  · have hdef : decToSci ⟨false, c, e⟩ = unsignedSci c e := by
      unfold decToSci
      simp
    rw [hdef]
    cases hbody : sciBody c e with
    | nil => exact absurd hbody (sciBody_ne_nil c e)
    | cons x xs =>
        have hx : x.isDigit = true ∨ x = '.' :=
          sciBody_chars c e x (by rw [hbody]; exact List.mem_cons_self x xs)
        have h1 : ¬ x = '-' := by
          rcases hx with hx | hx
          · intro hcon
            subst hcon
            exact absurd hx (by decide)
          · subst hx
            decide
        have h2 : ¬ x = '+' := by
          rcases hx with hx | hx
          · intro hcon
            subst hcon
            exact absurd hx (by decide)
          · subst hx
            decide
        have hshape : unsignedSci c e = x :: (xs ++ sciExp c e) := by
          unfold unsignedSci
          rw [hbody]
          rfl
        rw [hshape, decimalParse_cons h1 h2, ← hshape,
          decimalParseUnsigned_unsignedSci]
  · have hdef : decToSci ⟨true, c, e⟩ = '-' :: unsignedSci c e := by
      unfold decToSci
      simp
    rw [hdef, decimalParse_neg, decimalParseUnsigned_unsignedSci]
    rfl

/-- codecs.py line 38: `LargeBinary → base64.standard_b64encode`, under
`guard`. -/
def encode_binary : Option (List Nat) → Option (List Char) :=
  guardOpt b64encode

/-- codecs.py line 67: `base64.standard_b64decode` under `guard`;
decode failure models the exception. -/
def decode_binary : Option (List Char) → Option (List Nat)
  | none => none
  | some l => b64decode l

/-- codecs.py line 40: `Numeric → str`, under `guard`. -/
def encode_numeric : Option PyDecimal → Option (List Char) :=
  guardOpt decToSci

/-- codecs.py line 69: the `decimal.Decimal` constructor under `guard`;
parse failure models the exception. -/
def decode_numeric : Option (List Char) → Option PyDecimal
  | none => none
  | some l => decimalParse l

/-- codecs.py line 41: the fallthrough `identity` encoder, under
`guard`. -/
def encode_identity : Option α → Option α := guardOpt (fun x => x)

/-- codecs.py line 70: the fallthrough `identity` decoder, under
`guard`. -/
def decode_identity : Option α → Option α := guardOpt (fun x => x)

theorem decode_date_encode_date (d : PyDate)
    (h : validDate d.year d.month d.day) :
    decode_date (encode_date (some d)) = some d := by
  obtain ⟨y, m, dd⟩ := d
  simp only [encode_date, guardOpt, decode_date]
  rw [if_pos h]

theorem decode_datetime_encode_datetime (d : PyDateTime)
    (h1 : validDate d.year d.month d.day)
    (h2 : validTime d.hour d.minute d.second d.microsecond) :
    decode_datetime (encode_datetime (some d)) = some d := by
  obtain ⟨y, m, dd, hh, mm, ss, us⟩ := d
  simp only [encode_datetime, guardOpt, decode_datetime]
  rw [if_pos ⟨h1, h2⟩]

theorem decode_time_encode_time (t : PyTime)
    (h : validTime t.hour t.minute t.second t.microsecond) :
    decode_time (encode_time (some t)) = some t := by
  obtain ⟨hh, mm, ss, us⟩ := t
  simp only [encode_time, guardOpt, decode_time]
  rw [if_pos h]

/-- Claim C5: for each supported scalar type, decoding the encoding
returns the value, and `null` passes through: Date as `[y, m, d]` in
its valid ranges, DateTime as `[y, m, d, H, M, S, µs]`, Time as
`[H, M, S, µs]`, binary values (byte lists) through standard base64,
Numeric through its decimal string, pass-through scalars unchanged,
and each codec maps `none` to `none`. -/
theorem C5_codec_roundtrip :
    (∀ d : PyDate, validDate d.year d.month d.day →
      decode_date (encode_date (some d)) = some d) ∧
    (∀ d : PyDateTime, validDate d.year d.month d.day →
      validTime d.hour d.minute d.second d.microsecond →
      decode_datetime (encode_datetime (some d)) = some d) ∧
    (∀ t : PyTime, validTime t.hour t.minute t.second t.microsecond →
      decode_time (encode_time (some t)) = some t) ∧
    (∀ bs : List Nat, (∀ b ∈ bs, b < 256) →
      decode_binary (encode_binary (some bs)) = some bs) ∧
    (∀ d : PyDecimal, decode_numeric (encode_numeric (some d)) = some d) ∧
    (∀ (α : Type) (v : α), decode_identity (encode_identity (some v)) = some v) ∧
    (decode_date (encode_date none) = none ∧
      decode_datetime (encode_datetime none) = none ∧
      decode_time (encode_time none) = none ∧
      decode_binary (encode_binary none) = none ∧
      decode_numeric (encode_numeric none) = none ∧
      (∀ α : Type, decode_identity (encode_identity (none : Option α)) = none)) := by
  refine ⟨decode_date_encode_date, decode_datetime_encode_datetime,
    decode_time_encode_time, ?_, ?_, ?_, rfl, rfl, rfl, rfl, rfl, fun α => rfl⟩
  · intro bs h
    simp only [encode_binary, guardOpt, decode_binary]
    exact b64decode_b64encode bs h
  · intro d
    simp only [encode_numeric, guardOpt, decode_numeric]
    exact decimalParse_decToSci d
  · intro α v
    rfl

theorem C5_codec_roundtrip_witness :
    decode_date (encode_date (some ⟨2014, 5, 20⟩)) = some ⟨2014, 5, 20⟩ ∧
    decode_datetime (encode_datetime (some ⟨2012, 2, 29, 23, 59, 58, 999999⟩)) =
      some ⟨2012, 2, 29, 23, 59, 58, 999999⟩ ∧
    decode_time (encode_time (some ⟨13, 45, 6, 7⟩)) = some ⟨13, 45, 6, 7⟩ ∧
    decode_binary (encode_binary (some [104, 105, 33, 255])) =
      some [104, 105, 33, 255] ∧
    decode_numeric (encode_numeric (some ⟨true, 123, -7⟩)) =
      some ⟨true, 123, -7⟩ ∧
    decode_identity (encode_identity (some (42 : Nat))) = some 42 := by
  obtain ⟨h1, h2, h3, h4, h5, h6, -⟩ := C5_codec_roundtrip
  exact ⟨h1 ⟨2014, 5, 20⟩ (by decide),
    h2 ⟨2012, 2, 29, 23, 59, 58, 999999⟩ (by decide) (by decide),
    h3 ⟨13, 45, 6, 7⟩ (by decide),
    h4 [104, 105, 33, 255] (by decide),
    h5 ⟨true, 123, -7⟩,
    h6 Nat 42⟩

end DbSync
